import Mathlib

/-!
Verification of the Catalogue Synchronization Engine
(apps/worker/streams_service.py, apps/worker/catalogue_health_service.py,
apps/worker/playlist_followers_service.py, apps/worker/main.py).

The Python worker is shallowly embedded: HTTP responses become explicit
inputs (already-parsed JSON shapes), exceptions become `Except` values,
the relational store becomes an explicit list-of-rows state with an
explicit committed/pending split, and floats become rationals.
-/

namespace ISRC

/-! ## Pythonic string helpers

Python truthiness on optional strings (`None` and `""` are falsy) and
case folding (`str.lower` / `str.upper`), used throughout the worker. -/

/-- Python truthiness of an optional string: `None` and `""` are falsy. -/
def strTruthy : Option String → Bool
  | none => false
  | some s => s ≠ ""

/-- Embedding of `str.lower` (character-wise case folding). -/
def strLower (s : String) : String := ⟨s.data.map Char.toLower⟩

/-- Embedding of `str.upper` (character-wise case folding). -/
def strUpper (s : String) : String := ⟨s.data.map Char.toUpper⟩

theorem strLower_length (s : String) : (strLower s).length = s.length := by
  show (s.data.map Char.toLower).length = s.data.length
  exact List.length_map _ _

theorem strLower_eq_empty_iff (s : String) : strLower s = "" ↔ s = "" := by
  constructor
  · intro h
    have hl : (strLower s).length = 0 := by rw [h]; rfl
    rw [strLower_length] at hl
    cases s with
    | mk data => cases data with
      | nil => rfl
      | cons c cs => simp [String.length] at hl
  · intro h; rw [h]; rfl

/-! ## Resilient request executor

`streams_service.spotify_request_with_retries`: a `for attempt in range(3)`
loop; every `RequestException` is retried; on the third failure the *last
underlying exception* is re-raised (`raise` with no argument).  The
`raise RequestException("All retry attempts ...")` line after the loop is
unreachable.  The oracle `call k` is the outcome of attempt `k`. -/

/-- Error taxonomy for outbound requests.  `exhaustedRetries` is the shape a
dedicated typed "all retries exhausted" failure would have (the worker's
unreachable final raise constructs such a generic message exception). -/
inductive ReqError where
  | connectionError (msg : String)
  | httpError (status : Nat)
  | exhaustedRetries (msg : String)
  deriving DecidableEq, Repr

/-- Discriminator for the typed "exhausted retries" failure shape. -/
def ReqError.isExhausted : ReqError → Bool
  | .exhaustedRetries _ => true
  | _ => false

/-- Embedding of `spotify_request_with_retries`: at most 3 attempts; a success
on any attempt is returned at once; on the final failure the last attempt's
error is re-raised unchanged.  Returns the outcome paired with the number of
attempts made. -/
def spotify_request_with_retries {R : Type} (call : Nat → Except ReqError R) :
    Except ReqError R × Nat :=
  match call 0 with
  | .ok r => (.ok r, 1)
  | .error _ =>
    match call 1 with
    | .ok r => (.ok r, 2)
    | .error _ =>
      match call 2 with
      | .ok r => (.ok r, 3)
      | .error e => (.error e, 3)

/-! ## Track resolver

`streams_service.search_track`: the parsed `tracks.items` array of the
search response is the input; the HTTP layer is the executor above. -/

/-- One item of the search response's `tracks.items` array. -/
structure SpotifyTrackItem where
  id : Option String
  albumId : Option String
  name : Option String
  artistNames : List (Option String)
  isrc : Option String
  deriving DecidableEq, Repr

/-- The tuple `search_track` returns on success. -/
structure TrackInfo where
  trackId : String
  albumId : String
  trackName : Option String
  artistsJoined : Option String
  deriving DecidableEq, Repr

/-- A candidate's embedded code matches the query case-insensitively:
`t.get("external_ids", {}).get("isrc", "").upper() == isrc.upper()`. -/
def isrcMatches (isrc : String) (t : SpotifyTrackItem) : Bool :=
  strUpper (t.isrc.getD "") = strUpper isrc

/-- Candidate selection: first exact (case-insensitive) code match if any,
otherwise the first returned candidate. -/
def selectBest (isrc : String) (items : List SpotifyTrackItem) :
    Option SpotifyTrackItem :=
  match items.find? (isrcMatches isrc) with
  | some t => some t
  | none => items.head?

/-- Join of the truthy artist names with an ampersand, `None` when empty. -/
def joinArtists (names : List (Option String)) : Option String :=
  let kept := (names.filterMap id).filter (fun s => s ≠ "")
  if kept.isEmpty then none else some (String.intercalate " & " kept)

/-- Embedding of `search_track`: `None` on an empty candidate list; select
the best candidate; `None` unless both the track id and the album id are
truthy (`if not (track_id and album_id): return None`). -/
def search_track (isrc : String) (items : List SpotifyTrackItem) :
    Option TrackInfo :=
  match selectBest isrc items with
  | none => none
  | some best =>
    if strTruthy best.id && strTruthy best.albumId then
      some ⟨best.id.getD "", best.albumId.getD "", best.name,
            joinArtists best.artistNames⟩
    else none

/-! ## Metrics extractor

`streams_service.fetch_album` plus the playcount loop inside
`run_streams_collection`.  The GraphQL response is modelled already
parsed; `fetch_album` maps a request failure or a falsy `data` envelope
to the empty dict (here `none`). -/

/-- The nested track object of one item: uri and playcount fields. -/
structure TrackObj where
  uri : Option String
  playcount : Option String
  deriving DecidableEq, Repr

/-- One element of `tracksV2.items` (its `track` key may be absent/null). -/
structure AlbumItem where
  track : Option TrackObj
  deriving DecidableEq, Repr

/-- The `albumUnion` envelope: the `tracksV2.items` list. -/
structure AlbumUnion where
  items : List AlbumItem
  deriving DecidableEq, Repr

/-- A parsed pathfinder response: its `data` key (`none` when missing,
null or empty, which Python treats as falsy). -/
structure AlbumResponse where
  data : Option AlbumUnion
  deriving DecidableEq, Repr

/-- Embedding of `fetch_album`: `{}` (here `none`) when the request failed
after retries or the `data` envelope is falsy; the full parsed response
otherwise. -/
def fetch_album (resp : Except ReqError AlbumResponse) : Option AlbumResponse :=
  match resp with
  | .error _ => none
  | .ok rj => if rj.data.isSome then some rj else none

/-- The caller's chained lookup
`album_data.get("data", {}).get("albumUnion", {}).get("tracksV2", {}).get("items", [])`. -/
def tracksData (albumData : Option AlbumResponse) : List AlbumItem :=
  match albumData with
  | none => []
  | some rj =>
    match rj.data with
    | none => []
    | some au => au.items

/-- Decimal value of a digit string, as Python's int() computes it. -/
def digitsToNat (l : List Char) : Nat :=
  l.foldl (fun acc c => acc * 10 + (c.toNat - 48)) 0

/-- Validation of the raw counter (`if raw and str(raw).isdigit()`): kept only
if present, truthy and all decimal digits; the parsed value, else `none`. -/
def validCount : Option String → Option Nat
  | none => none
  | some s =>
    if s ≠ "" && s.data.all Char.isDigit then some (digitsToNat s.data)
    else none

/-- The playcount loop: first item whose `track.uri` equals the target and
whose counter is valid; an item matching the uri with an invalid counter
does not stop the scan. -/
def extractPlaycount (trackId : String) : List AlbumItem → Option Nat
  | [] => none
  | item :: rest =>
    match item.track with
    | none => extractPlaycount trackId rest
    | some t =>
      if t.uri = some ("spotify:track:" ++ trackId) then
        match validCount t.playcount with
        | some n => some n
        | none => extractPlaycount trackId rest
      else extractPlaycount trackId rest

/-- The whole per-track metrics pipeline: fetch, dig out the items, scan. -/
def streamPlaycount (resp : Except ReqError AlbumResponse) (trackId : String) :
    Option Nat :=
  extractPlaycount trackId (tracksData (fetch_album resp))

/-! ## Similarity matcher

`catalogue_health_service.similar` wraps difflib's sequence matcher
(Ratcliff/Obershelp matching-blocks ratio), called as
SequenceMatcher(None, a.lower(), b.lower()).  The dependency is modelled
by its documented contract, including the default autojunk heuristic:
when the second sequence has length at least 200, its elements occurring
more than one percent of the time are "popular" and excluded from the
block-finding index (difflib computes this once for the whole second
sequence; the recursion over sub-ranges keeps using it).  The longest
block visible through that index — ties broken by the start earliest in
the first sequence and then earliest in the second — is then extended on
both ends over equal elements; because the matcher is called with no
junk predicate, its junk set is empty, so the two non-junk extension
loops run over every equal element and the two junk-absorbing loops
never fire.  Matching blocks are obtained by recursing on both sides of
the extended block, and the ratio is two-times-matched over total length
(1 for two empty sequences). -/

/-- Autojunk popularity, computed from the whole second sequence: with
length at least 200, an element occurring more than length/100 + 1 times
is dropped from the block-finding index. -/
def popularChar (b : List Char) (c : Char) : Bool :=
  decide (200 ≤ b.length) && decide (b.length / 100 + 1 < b.count c)

/-- Length of the run of equal elements at the heads of two lists that
the popularity-filtered index can see (the chain breaks at a popular
element of the second sequence). -/
def visRunLen (pop : Char → Bool) : List Char → List Char → Nat
  | x :: xs, y :: ys =>
    if x = y ∧ pop y = false then visRunLen pop xs ys + 1 else 0
  | _, _ => 0

/-- Size of the index-visible matching block starting at position i of a
and j of b. -/
def matchLen (pop : Char → Bool) (a b : List Char) (i j : Nat) : Nat :=
  visRunLen pop (a.drop i) (b.drop j)

/-- Scan of all block starts j in b against a fixed start i in a, keeping
the first strictly larger visible block. -/
def innerScan (pop : Char → Bool) (a b : List Char) (i : Nat)
    (best : Nat × Nat × Nat) (js : List Nat) : Nat × Nat × Nat :=
  js.foldl (fun acc j =>
    if acc.2.2 < matchLen pop a b i j then (i, j, matchLen pop a b i j)
    else acc) best

/-- Scan of all block starts i in a, each against all starts in b. -/
def outerScan (pop : Char → Bool) (a b : List Char)
    (best : Nat × Nat × Nat) (is : List Nat) : Nat × Nat × Nat :=
  is.foldl (fun acc i => innerScan pop a b i acc (List.range b.length))
    best

/-- The longest index-visible matching block (i, j, size), before the
extension phase: scan all start pairs in lexicographic order, keeping
the first strictly larger block. -/
def rawBestMatch (pop : Char → Bool) (a b : List Char) :
    Nat × Nat × Nat :=
  outerScan pop a b (0, 0, 0) (List.range a.length)

/-- Backward extension of a block over equal elements (the matcher's junk
set is empty, so no element blocks the extension). -/
def extendBack (a b : List Char) : Nat → Nat → Nat → Nat × Nat × Nat
  | 0, j, k => (0, j, k)
  | i + 1, 0, k => (i + 1, 0, k)
  | i + 1, j + 1, k =>
    if (a.get? i).isSome ∧ a.get? i = b.get? j then
      extendBack a b i j (k + 1)
    else (i + 1, j + 1, k)

/-- Forward extension of a block over equal elements, fuelled by the
length of the first sequence. -/
def extendFwd (a b : List Char) (i j : Nat) : Nat → Nat → Nat
  | 0, k => k
  | fuel + 1, k =>
    if (a.get? (i + k)).isSome ∧ a.get? (i + k) = b.get? (j + k) then
      extendFwd a b i j fuel (k + 1)
    else k

/-- Both extension phases applied to a found block. -/
def extendMatch (a b : List Char) (t : Nat × Nat × Nat) :
    Nat × Nat × Nat :=
  let e := extendBack a b t.1 t.2.1 t.2.2
  (e.1, e.2.1, extendFwd a b e.1 e.2.1 a.length e.2.2)

/-- The longest matching block the matcher returns: the best visible
block, extended on both ends. -/
def bestMatchIn (pop : Char → Bool) (a b : List Char) : Nat × Nat × Nat :=
  extendMatch a b (rawBestMatch pop a b)

theorem visRunLen_le_left (pop : Char → Bool) (xs ys : List Char) :
    visRunLen pop xs ys ≤ xs.length := by
  induction xs generalizing ys with
  | nil => cases ys <;> simp [visRunLen]
  | cons x xs ih =>
    cases ys with
    | nil => simp [visRunLen]
    | cons y ys =>
      by_cases h : x = y ∧ pop y = false <;> simp [visRunLen, h]
      exact ih ys

theorem visRunLen_le_right (pop : Char → Bool) (xs ys : List Char) :
    visRunLen pop xs ys ≤ ys.length := by
  induction xs generalizing ys with
  | nil => cases ys <;> simp [visRunLen]
  | cons x xs ih =>
    cases ys with
    | nil => simp [visRunLen]
    | cons y ys =>
      by_cases h : x = y ∧ pop y = false <;> simp [visRunLen, h]
      exact ih ys

theorem matchLen_le_left (pop : Char → Bool) (a b : List Char) (i j : Nat)
    (hi : i ≤ a.length) : i + matchLen pop a b i j ≤ a.length := by
  have := visRunLen_le_left pop (a.drop i) (b.drop j)
  rw [List.length_drop] at this
  unfold matchLen
  omega

theorem matchLen_le_right (pop : Char → Bool) (a b : List Char)
    (i j : Nat) (hj : j ≤ b.length) :
    j + matchLen pop a b i j ≤ b.length := by
  have := visRunLen_le_right pop (a.drop i) (b.drop j)
  rw [List.length_drop] at this
  unfold matchLen
  omega

theorem matchLen_zero_of_ge (pop : Char → Bool) (a b : List Char)
    (i j : Nat) (hj : b.length ≤ j) : matchLen pop a b i j = 0 := by
  have hd : b.drop j = [] := List.drop_eq_nil_of_le hj
  unfold matchLen
  rw [hd]
  cases a.drop i <;> rfl

/-- The running best stays inside both sequences across the inner scan. -/
theorem innerScan_bounds (pop : Char → Bool) (a b : List Char) (i : Nat)
    (hi : i < a.length) (js : List Nat) (hjs : ∀ j ∈ js, j < b.length)
    (best : Nat × Nat × Nat)
    (h : best.1 + best.2.2 ≤ a.length ∧ best.2.1 + best.2.2 ≤ b.length) :
    (innerScan pop a b i best js).1 + (innerScan pop a b i best js).2.2
        ≤ a.length ∧
      (innerScan pop a b i best js).2.1 +
        (innerScan pop a b i best js).2.2 ≤ b.length := by
  induction js generalizing best with
  | nil => exact h
  | cons j js ih =>
    rw [innerScan, List.foldl_cons, ← innerScan]
    by_cases hc : best.2.2 < matchLen pop a b i j
    · simp only [hc, if_true]
      refine ih (fun y hy => hjs y (List.mem_cons_of_mem j hy)) _ ?_
      constructor
      · exact matchLen_le_left pop a b i j (Nat.le_of_lt hi)
      · exact matchLen_le_right pop a b i j
          (Nat.le_of_lt (hjs j (List.mem_cons_self j js)))
    · simp only [hc, if_false]
      exact ih (fun y hy => hjs y (List.mem_cons_of_mem j hy)) best h

/-- The running best stays inside both sequences across the outer scan. -/
theorem outerScan_bounds (pop : Char → Bool) (a b : List Char)
    (is : List Nat) (his : ∀ i ∈ is, i < a.length)
    (best : Nat × Nat × Nat)
    (h : best.1 + best.2.2 ≤ a.length ∧ best.2.1 + best.2.2 ≤ b.length) :
    (outerScan pop a b best is).1 + (outerScan pop a b best is).2.2
        ≤ a.length ∧
      (outerScan pop a b best is).2.1 + (outerScan pop a b best is).2.2
        ≤ b.length := by
  induction is generalizing best with
  | nil => exact h
  | cons i is ih =>
    rw [outerScan, List.foldl_cons, ← outerScan]
    refine ih (fun y hy => his y (List.mem_cons_of_mem i hy)) _ ?_
    exact innerScan_bounds pop a b i (his i (List.mem_cons_self i is))
      (List.range b.length) (fun j hj => List.mem_range.mp hj) best h

/-- The pre-extension best block fits inside both sequences. -/
theorem rawBestMatch_bounds (pop : Char → Bool) (a b : List Char) :
    (rawBestMatch pop a b).1 + (rawBestMatch pop a b).2.2 ≤ a.length ∧
      (rawBestMatch pop a b).2.1 + (rawBestMatch pop a b).2.2
        ≤ b.length := by
  unfold rawBestMatch
  exact outerScan_bounds pop a b (List.range a.length)
    (fun i hi => List.mem_range.mp hi) (0, 0, 0)
    ⟨Nat.zero_le _, Nat.zero_le _⟩

/-- Backward extension moves the start without changing either end. -/
theorem extendBack_sums (a b : List Char) :
    ∀ i j k, (extendBack a b i j k).1 + (extendBack a b i j k).2.2 = i + k
      ∧ (extendBack a b i j k).2.1 + (extendBack a b i j k).2.2 =
        j + k := by
  intro i
  induction i with
  | zero =>
    intro j k
    constructor <;> rfl
  | succ i ih =>
    intro j k
    cases j with
    | zero => constructor <;> rfl
    | succ j =>
      have hstep : extendBack a b (i + 1) (j + 1) k =
          if (a.get? i).isSome ∧ a.get? i = b.get? j then
            extendBack a b i j (k + 1)
          else (i + 1, j + 1, k) := rfl
      rw [hstep]
      by_cases hc : (a.get? i).isSome ∧ a.get? i = b.get? j
      · rw [if_pos hc]
        have := ih j (k + 1)
        omega
      · rw [if_neg hc]
        constructor <;> rfl

/-- Forward extension keeps the block inside both sequences. -/
theorem extendFwd_bounds (a b : List Char) (i j : Nat) :
    ∀ fuel k, i + k ≤ a.length → j + k ≤ b.length →
      i + extendFwd a b i j fuel k ≤ a.length ∧
        j + extendFwd a b i j fuel k ≤ b.length := by
  intro fuel
  induction fuel with
  | zero =>
    intro k h1 h2
    exact ⟨h1, h2⟩
  | succ fuel ih =>
    intro k h1 h2
    have hstep : extendFwd a b i j (fuel + 1) k =
        if (a.get? (i + k)).isSome ∧ a.get? (i + k) = b.get? (j + k) then
          extendFwd a b i j fuel (k + 1)
        else k := rfl
    rw [hstep]
    by_cases hc : (a.get? (i + k)).isSome ∧ a.get? (i + k) = b.get? (j + k)
    · rw [if_pos hc]
      have ha : i + k < a.length := by
        by_contra hcon
        have : a.get? (i + k) = none :=
          List.get?_eq_none.mpr (by omega)
        rw [this] at hc
        exact absurd hc.1 (by simp)
      have hb : j + k < b.length := by
        by_contra hcon
        have : b.get? (j + k) = none :=
          List.get?_eq_none.mpr (by omega)
        rw [this, Option.isSome_iff_exists] at hc
        rcases hc with ⟨⟨c, hcs⟩, hce⟩
        rw [hce] at hcs
        exact absurd hcs (by simp)
      exact ih (k + 1) (by omega) (by omega)
    · rw [if_neg hc]
      exact ⟨h1, h2⟩

/-- The extended best block fits inside both sequences. -/
theorem bestMatchIn_bounds (pop : Char → Bool) (a b : List Char) :
    (bestMatchIn pop a b).1 + (bestMatchIn pop a b).2.2 ≤ a.length ∧
      (bestMatchIn pop a b).2.1 + (bestMatchIn pop a b).2.2
        ≤ b.length := by
  have hraw := rawBestMatch_bounds pop a b
  have hsums := extendBack_sums a b (rawBestMatch pop a b).1
    (rawBestMatch pop a b).2.1 (rawBestMatch pop a b).2.2
  unfold bestMatchIn extendMatch
  simp only []
  apply extendFwd_bounds a b
  · omega
  · omega

/-- Total size of all matching blocks: recurse left and right of the
longest matching block, as difflib's matching-blocks procedure does,
with the popularity index fixed once at the top level.  Structural
recursion on an explicit fuel (the recursion depth is bounded by the
length of the first sequence). -/
def matchTotalF (pop : Char → Bool) : Nat → List Char → List Char → Nat
  | 0, _, _ => 0
  | fuel + 1, a, b =>
    if (bestMatchIn pop a b).2.2 = 0 then 0
    else
      matchTotalF pop fuel (a.take (bestMatchIn pop a b).1)
          (b.take (bestMatchIn pop a b).2.1) +
        (bestMatchIn pop a b).2.2 +
        matchTotalF pop fuel
          (a.drop ((bestMatchIn pop a b).1 + (bestMatchIn pop a b).2.2))
          (b.drop ((bestMatchIn pop a b).2.1 + (bestMatchIn pop a b).2.2))

/-- Total size of all matching blocks, with sufficient fuel. -/
def matchTotal (pop : Char → Bool) (a b : List Char) : Nat :=
  matchTotalF pop (a.length + 1) a b

theorem bestMatchIn_nil_left (pop : Char → Bool) (b : List Char) :
    bestMatchIn pop [] b = (0, 0, 0) := rfl

theorem matchTotalF_nil_left (pop : Char → Bool) (fuel : Nat)
    (b : List Char) : matchTotalF pop fuel [] b = 0 := by
  cases fuel with
  | zero => rfl
  | succ n =>
    rw [matchTotalF, bestMatchIn_nil_left]
    simp

/-- The matched total never exceeds either sequence length. -/
theorem matchTotalF_le (pop : Char → Bool) (fuel : Nat)
    (a b : List Char) :
    matchTotalF pop fuel a b ≤ a.length ∧
      matchTotalF pop fuel a b ≤ b.length := by
  induction fuel generalizing a b with
  | zero => simp [matchTotalF]
  | succ n ih =>
    rw [matchTotalF]
    by_cases hz : (bestMatchIn pop a b).2.2 = 0
    · simp [hz]
    · simp only [hz, if_false]
      have hb := bestMatchIn_bounds pop a b
      have h1 := ih (a.take (bestMatchIn pop a b).1)
        (b.take (bestMatchIn pop a b).2.1)
      have h2 := ih
        (a.drop ((bestMatchIn pop a b).1 + (bestMatchIn pop a b).2.2))
        (b.drop ((bestMatchIn pop a b).2.1 + (bestMatchIn pop a b).2.2))
      rw [List.length_take, List.length_take] at h1
      rw [List.length_drop, List.length_drop] at h2
      omega

theorem matchTotal_le (pop : Char → Bool) (a b : List Char) :
    matchTotal pop a b ≤ a.length ∧ matchTotal pop a b ≤ b.length :=
  matchTotalF_le pop (a.length + 1) a b

/-! Self-similarity of the matcher: on two copies of the same sequence
the scan's winner is always on the diagonal (an off-diagonal block is
dominated by the diagonal block over the same characters, which the
lexicographic scan meets no later), and the extension loops then stretch
it to the whole sequence. -/

/-- A visible run of length at least m is exactly a pointwise chain of
equal, non-popular characters. -/
theorem visRunLen_ge_iff (pop : Char → Bool) :
    ∀ (m : Nat) (xs ys : List Char),
      m ≤ visRunLen pop xs ys ↔
        ∀ t < m, ∃ cx cy, xs.get? t = some cx ∧ ys.get? t = some cy ∧
          cx = cy ∧ pop cy = false := by
  intro m
  induction m with
  | zero => intro xs ys; simp
  | succ m ih =>
    intro xs ys
    cases xs with
    | nil =>
      simp only [visRunLen]
      constructor
      · intro h
        exact absurd h (by omega)
      · intro h
        rcases h 0 (by omega) with ⟨cx, _, hcx, _⟩
        exact absurd hcx (by simp)
    | cons x xs =>
      cases ys with
      | nil =>
        constructor
        · intro h
          rw [show visRunLen pop (x :: xs) [] = 0 from rfl] at h
          exact absurd h (by omega)
        · intro h
          rcases h 0 (by omega) with ⟨_, cy, _, hcy, _⟩
          exact absurd hcy (by simp)
      | cons y ys =>
        have hstep : visRunLen pop (x :: xs) (y :: ys) =
            if x = y ∧ pop y = false then visRunLen pop xs ys + 1
            else 0 := rfl
        by_cases hc : x = y ∧ pop y = false
        · have hv : visRunLen pop (x :: xs) (y :: ys) =
              visRunLen pop xs ys + 1 := by
            rw [hstep, if_pos hc]
          rw [hv]
          constructor
          · intro h t ht
            cases t with
            | zero => exact ⟨x, y, rfl, rfl, hc.1, hc.2⟩
            | succ t =>
              rcases (ih xs ys).mp (by omega) t (by omega) with
                ⟨cx, cy, h1, h2, h3, h4⟩
              exact ⟨cx, cy, h1, h2, h3, h4⟩
          · intro h
            have : m ≤ visRunLen pop xs ys := by
              apply (ih xs ys).mpr
              intro t ht
              rcases h (t + 1) (by omega) with ⟨cx, cy, h1, h2, h3, h4⟩
              exact ⟨cx, cy, h1, h2, h3, h4⟩
            omega
        · have hv : visRunLen pop (x :: xs) (y :: ys) = 0 := by
            rw [hstep, if_neg hc]
          rw [hv]
          constructor
          · intro h
            exact absurd h (by omega)
          · intro h
            rcases h 0 (by omega) with ⟨cx, cy, h1, h2, h3, h4⟩
            have hx : x = cx := Option.some.inj h1
            have hy : y = cy := Option.some.inj h2
            refine absurd ?_ hc
            constructor
            · rw [hx, hy]
              exact h3
            · rw [hy]
              exact h4

/-- On two copies of one sequence, the diagonal block over the same
characters is at least as long as any off-diagonal block. -/
theorem matchLen_min_diag (pop : Char → Bool) (x : List Char)
    (i j : Nat) :
    matchLen pop x x i j ≤ matchLen pop x x (min i j) (min i j) := by
  unfold matchLen
  have hchain := (visRunLen_ge_iff pop (visRunLen pop (x.drop i)
    (x.drop j)) (x.drop i) (x.drop j)).mp (Nat.le_refl _)
  apply (visRunLen_ge_iff pop _ _ _).mpr
  intro t ht
  rcases hchain t ht with ⟨cx, cy, h1, h2, h3, h4⟩
  rw [List.get?_drop] at h1 h2 ⊢
  rcases Nat.le_total i j with hij | hij
  · rw [Nat.min_eq_left hij]
    refine ⟨cx, cx, h1, h1, rfl, ?_⟩
    rw [h3]
    exact h4
  · rw [Nat.min_eq_right hij]
    exact ⟨cy, cy, h2, h2, rfl, h4⟩

/-- Inner-scan invariant on two copies of one sequence: if the running
best is diagonal and dominates all previously scanned pairs, it stays
diagonal and dominates the scanned columns as well. -/
theorem innerScan_diag (pop : Char → Bool) (x : List Char) (i : Nat) :
    ∀ (n c : Nat) (best : Nat × Nat × Nat),
      best.1 = best.2.1 →
      (∀ i' j', i' < i → matchLen pop x x i' j' ≤ best.2.2) →
      (∀ j', j' < c → matchLen pop x x i j' ≤ best.2.2) →
      (innerScan pop x x i best (List.range' c n)).1 =
          (innerScan pop x x i best (List.range' c n)).2.1 ∧
        (∀ i' j', i' < i →
          matchLen pop x x i' j' ≤
            (innerScan pop x x i best (List.range' c n)).2.2) ∧
        (∀ j', j' < c + n →
          matchLen pop x x i j' ≤
            (innerScan pop x x i best (List.range' c n)).2.2) := by
  intro n
  induction n with
  | zero =>
    intro c best hdiag hrows hcols
    refine ⟨hdiag, hrows, ?_⟩
    intro j' hj'
    exact hcols j' (by omega)
  | succ n ih =>
    intro c best hdiag hrows hcols
    rw [List.range'_succ, innerScan, List.foldl_cons, ← innerScan]
    by_cases hc : best.2.2 < matchLen pop x x i c
    · have hic : i = c := by
        by_contra hne
        rcases Nat.lt_or_ge c i with hlt | hge
        · have h1 : matchLen pop x x i c ≤ matchLen pop x x c c := by
            have := matchLen_min_diag pop x i c
            rw [Nat.min_eq_right (Nat.le_of_lt hlt)] at this
            exact this
          have h2 := hrows c c hlt
          omega
        · have hlt2 : i < c := by omega
          have h1 : matchLen pop x x i c ≤ matchLen pop x x i i := by
            have := matchLen_min_diag pop x i c
            rw [Nat.min_eq_left (Nat.le_of_lt hlt2)] at this
            exact this
          have h2 := hcols i hlt2
          omega
      simp only [hc, if_true]
      have hres := ih (c + 1) (i, c, matchLen pop x x i c)
        (by rw [hic])
        (fun i' j' hi' => Nat.le_trans (hrows i' j' hi')
          (Nat.le_of_lt hc))
        (fun j' hj' => by
          rcases Nat.lt_or_ge j' c with h | h
          · exact Nat.le_trans (hcols j' h) (Nat.le_of_lt hc)
          · have : j' = c := by omega
            rw [this])
      refine ⟨hres.1, hres.2.1, ?_⟩
      intro j' hj'
      exact hres.2.2 j' (by omega)
    · simp only [hc, if_false]
      have hres := ih (c + 1) best hdiag hrows
        (fun j' hj' => by
          rcases Nat.lt_or_ge j' c with h | h
          · exact hcols j' h
          · have : j' = c := by omega
            rw [this]
            omega)
      refine ⟨hres.1, hres.2.1, ?_⟩
      intro j' hj'
      exact hres.2.2 j' (by omega)

/-- Outer-scan invariant on two copies of one sequence. -/
theorem outerScan_diag (pop : Char → Bool) (x : List Char) :
    ∀ (n r : Nat) (best : Nat × Nat × Nat),
      best.1 = best.2.1 →
      (∀ i' j', i' < r → matchLen pop x x i' j' ≤ best.2.2) →
      (outerScan pop x x best (List.range' r n)).1 =
          (outerScan pop x x best (List.range' r n)).2.1 ∧
        (∀ i' j', i' < r + n →
          matchLen pop x x i' j' ≤
            (outerScan pop x x best (List.range' r n)).2.2) := by
  intro n
  induction n with
  | zero =>
    intro r best hdiag hrows
    refine ⟨hdiag, ?_⟩
    intro i' j' hi'
    exact hrows i' j' (by omega)
  | succ n ih =>
    intro r best hdiag hrows
    rw [List.range'_succ, outerScan, List.foldl_cons, ← outerScan]
    have hrow := innerScan_diag pop x r x.length 0 best hdiag hrows
      (fun j' hj' => absurd hj' (by omega))
    have hinner :
        innerScan pop x x r best (List.range' 0 x.length) =
          innerScan pop x x r best (List.range x.length) := by
      rw [List.range_eq_range']
    rw [hinner] at hrow
    have hres := ih (r + 1) (innerScan pop x x r best
      (List.range x.length)) hrow.1
      (fun i' j' hi' => by
        rcases Nat.lt_or_ge i' r with h | h
        · exact hrow.2.1 i' j' h
        · have hir : i' = r := by omega
          subst hir
          rcases Nat.lt_or_ge j' x.length with hj | hj
          · exact hrow.2.2 j' (by omega)
          · rw [matchLen_zero_of_ge pop x x i' j' hj]
            omega)
    refine ⟨hres.1, ?_⟩
    intro i' j' hi'
    exact hres.2 i' j' (by omega)

/-- On two copies of one sequence the scan's winner is diagonal. -/
theorem rawBestMatch_diag (pop : Char → Bool) (x : List Char) :
    (rawBestMatch pop x x).1 = (rawBestMatch pop x x).2.1 := by
  unfold rawBestMatch
  rw [List.range_eq_range']
  exact (outerScan_diag pop x x.length 0 (0, 0, 0) rfl
    (fun i' j' hi' => absurd hi' (by omega))).1

/-- Backward extension of a diagonal block reaches the origin. -/
theorem extendBack_self (x : List Char) :
    ∀ d k, d ≤ x.length → extendBack x x d d k = (0, 0, d + k) := by
  intro d
  induction d with
  | zero =>
    intro k _
    have h0 : extendBack x x 0 0 k = (0, 0, k) := rfl
    rw [h0, Nat.zero_add]
  | succ d ih =>
    intro k h
    have hd : d < x.length := by omega
    have hsome : (x.get? d).isSome := by
      rw [List.get?_eq_get hd]
      rfl
    show (if (x.get? d).isSome ∧ x.get? d = x.get? d then
      extendBack x x d d (k + 1) else (d + 1, d + 1, k)) = _
    rw [if_pos ⟨hsome, rfl⟩, ih (k + 1) (by omega)]
    have : d + (k + 1) = d + 1 + k := by omega
    rw [this]

/-- Forward extension from the origin of two equal sequences reaches the
whole length. -/
theorem extendFwd_self (x : List Char) :
    ∀ fuel k, x.length ≤ fuel + k → k ≤ x.length →
      extendFwd x x 0 0 fuel k = x.length := by
  intro fuel
  induction fuel with
  | zero =>
    intro k h1 h2
    show k = x.length
    omega
  | succ fuel ih =>
    intro k h1 h2
    show (if (x.get? (0 + k)).isSome ∧ x.get? (0 + k) = x.get? (0 + k)
      then extendFwd x x 0 0 fuel (k + 1) else k) = x.length
    rcases Nat.lt_or_ge k x.length with hk | hk
    · have hsome : (x.get? (0 + k)).isSome := by
        rw [Nat.zero_add, List.get?_eq_get hk]
        rfl
      rw [if_pos ⟨hsome, rfl⟩]
      exact ih (k + 1) (by omega) (by omega)
    · have hnone : x.get? (0 + k) = none := by
        rw [Nat.zero_add]
        exact List.get?_eq_none.mpr hk
      rw [if_neg (by rw [hnone]; simp)]
      omega

/-- On two copies of the same sequence the extended longest matching
block is the whole sequence at the origin. -/
theorem bestMatchIn_self (pop : Char → Bool) (x : List Char) :
    bestMatchIn pop x x = (0, 0, x.length) := by
  have hdiag := rawBestMatch_diag pop x
  have hbounds := rawBestMatch_bounds pop x x
  have hd : (rawBestMatch pop x x).1 ≤ x.length := by omega
  have hback : extendBack x x (rawBestMatch pop x x).1
      (rawBestMatch pop x x).2.1 (rawBestMatch pop x x).2.2 =
      (0, 0, (rawBestMatch pop x x).1 + (rawBestMatch pop x x).2.2) := by
    rw [← hdiag]
    exact extendBack_self x _ _ hd
  unfold bestMatchIn extendMatch
  simp only []
  rw [hback]
  show (0, 0, extendFwd x x 0 0 x.length
    ((rawBestMatch pop x x).1 + (rawBestMatch pop x x).2.2)) =
      (0, 0, x.length)
  have hk : (rawBestMatch pop x x).1 + (rawBestMatch pop x x).2.2
      ≤ x.length := hbounds.1
  rw [extendFwd_self x x.length _ (by omega) (by omega)]

/-- On two copies of the same sequence every element is matched. -/
theorem matchTotal_self (pop : Char → Bool) (x : List Char) :
    matchTotal pop x x = x.length := by
  rw [matchTotal, matchTotalF, bestMatchIn_self]
  by_cases hz : x.length = 0
  · simp [hz]
  · simp only [hz, if_false]
    have h1 : x.take 0 = [] := rfl
    have h2 : x.drop (0 + x.length) = [] := by
      simp
    rw [h1, h2, matchTotalF_nil_left]
    omega

/-- Ratio of the sequence matcher: two-times-matched over total length,
1 when both sequences are empty, and the popularity index computed once
from the second sequence (difflib's autojunk default). -/
def seqRatio (a b : List Char) : ℚ :=
  if a.length + b.length = 0 then 1
  else 2 * (matchTotal (popularChar b) a b : ℚ) /
    ((a.length : ℚ) + (b.length : ℚ))

/-- Embedding of `similar`: 0.0 when either input is falsy, else the
matcher ratio on the case-folded strings. -/
def similar (a b : String) : ℚ :=
  if a = "" ∨ b = "" then 0
  else seqRatio (strLower a).data (strLower b).data

theorem seqRatio_nonneg (a b : List Char) : 0 ≤ seqRatio a b := by
  unfold seqRatio
  by_cases h : a.length + b.length = 0
  · simp [h]
  · simp only [h, if_false]
    apply div_nonneg
    · positivity
    · positivity

theorem seqRatio_le_one (a b : List Char) : seqRatio a b ≤ 1 := by
  unfold seqRatio
  by_cases h : a.length + b.length = 0
  · simp [h]
  · simp only [h, if_false]
    have hpos : (0 : ℚ) < (a.length : ℚ) + (b.length : ℚ) := by
      have : 0 < a.length + b.length := Nat.pos_of_ne_zero h
      exact_mod_cast this
    rw [div_le_one hpos]
    have hle := matchTotal_le (popularChar b) a b
    have h2 : 2 * matchTotal (popularChar b) a b ≤ a.length + b.length :=
      by omega
    have : ((2 * matchTotal (popularChar b) a b : Nat) : ℚ) ≤
        ((a.length + b.length : Nat) : ℚ) := by exact_mod_cast h2
    push_cast at this
    linarith

theorem seqRatio_self_eq_one (a : List Char) (h : a ≠ []) :
    seqRatio a a = 1 := by
  unfold seqRatio
  have hlen : a.length ≠ 0 := by
    intro hz; exact h (List.length_eq_zero.mp hz)
  have hne : a.length + a.length ≠ 0 := by omega
  simp only [hne, if_false, matchTotal_self]
  rw [div_eq_one_iff_eq]
  · ring
  · have : (0 : ℚ) < (a.length : ℚ) := by exact_mod_cast Nat.pos_of_ne_zero hlen
    linarith

/-! ## Availability checker

`catalogue_health_service.check_apple_music_api` (Catalog A) and
`catalogue_health_service.check_spotify_api` (Catalog B). -/

/-- One result of the Catalog A search response, fields already defaulted
to the empty string as the code's lookups do. -/
structure AppleResult where
  trackName : String
  collectionName : String
  artistName : String
  deriving DecidableEq, Repr

/-- Outcome of one attempt against the Catalog A search endpoint: a 403
rate-limit signal, a transport error, or a parsed result list. -/
inductive AppleAttempt where
  | rateLimited
  | netError
  | okResults (rs : List AppleResult)
  deriving DecidableEq, Repr

/-- The Catalog A match rule on similarity scores: artist similarity at
least 0.85, and track-title or album-title similarity at least 0.85. -/
def appleMatchRule (sArtist sTrack sAlbum : ℚ) : Bool :=
  ((0.85 : ℚ) ≤ sArtist) && (((0.85 : ℚ) ≤ sTrack) || ((0.85 : ℚ) ≤ sAlbum))

/-- One result matches the queried artist/title under the match rule. -/
def appleMatch (artist title : String) (r : AppleResult) : Bool :=
  appleMatchRule (similar r.artistName artist) (similar r.trackName title)
    (similar r.collectionName title)

/-- Scan of a successful response: any matching result reports presence. -/
def scanAppleResults (artist title : String) (rs : List AppleResult) : Bool :=
  rs.any (appleMatch artist title)

/-- Embedding of `check_apple_music_api`: up to 3 attempts; rate-limit and
transport failures back off and retry; the first parsed response is
scanned; every attempt failing degrades to false (not found). -/
def check_apple_music_api (artist title : String)
    (a0 a1 a2 : AppleAttempt) : Bool :=
  match a0 with
  | .okResults rs => scanAppleResults artist title rs
  | _ =>
    match a1 with
    | .okResults rs => scanAppleResults artist title rs
    | _ =>
      match a2 with
      | .okResults rs => scanAppleResults artist title rs
      | _ => false

/-- One item of the Catalog B authenticated search (name and artist names,
already defaulted to empty strings as the code's lookups do). -/
structure SpSearchItem where
  name : String
  artists : List String
  deriving DecidableEq, Repr

/-- The Catalog B match rule: candidate title similarity at least 0.85 and
some candidate artist similarity at least 0.85. -/
def spotifyItemMatch (artist title : String) (item : SpSearchItem) : Bool :=
  ((0.85 : ℚ) ≤ similar item.name title) &&
    item.artists.any (fun a => (0.85 : ℚ) ≤ similar a artist)

/-- Embedding of `check_spotify_api`: any exception degrades to false. -/
def check_spotify_api (artist title : String)
    (resp : Except ReqError (List SpSearchItem)) : Bool :=
  match resp with
  | .error _ => false
  | .ok items => items.any (spotifyItemMatch artist title)

/-! ## Snapshot persistence

The two snapshot tables as explicit lists of rows.  Both inserts use
ON CONFLICT on their key columns with DO UPDATE of the value fields
only, modelled by a generic keyed upsert. -/

section Upsert

variable {R K : Type} [DecidableEq K]

/-- Keyed upsert: on a key conflict overwrite the conflicting rows' value
fields via ov, otherwise append the new row. -/
def upsertG (key : R → K) (ov : R → R → R) (tbl : List R) (row : R) :
    List R :=
  if tbl.any (fun r => key r == key row) then
    tbl.map (fun r => if key r = key row then ov r row else r)
  else tbl ++ [row]

end Upsert

/-- A row of the streams snapshot table. -/
structure StreamsRow where
  platform : String
  track_uid : String
  stream_date : Int
  playcount : Nat
  user_id : String
  deriving DecidableEq, Repr

/-- The streams conflict target (platform, track_uid, stream_date). -/
def streamsKey (r : StreamsRow) : String × String × Int :=
  (r.platform, r.track_uid, r.stream_date)

/-- DO UPDATE SET playcount = EXCLUDED.playcount (value field only). -/
def ovStreams (old new : StreamsRow) : StreamsRow :=
  { old with playcount := new.playcount }

/-- The streams snapshot upsert. -/
def upsertStreams : List StreamsRow → StreamsRow → List StreamsRow :=
  upsertG streamsKey ovStreams

/-- A row of the catalogue health snapshot table. -/
structure HealthRow where
  check_date : Int
  track_uid : String
  apple_music_status : Bool
  spotify_status : Bool
  user_id : String
  deriving DecidableEq, Repr

/-- The health conflict target (check_date, track_uid). -/
def healthKey (r : HealthRow) : Int × String :=
  (r.check_date, r.track_uid)

/-- DO UPDATE of the two status value fields. -/
def ovHealth (old new : HealthRow) : HealthRow :=
  { old with
    apple_music_status := new.apple_music_status,
    spotify_status := new.spotify_status }

/-- The health snapshot upsert. -/
def upsertHealth : List HealthRow → HealthRow → List HealthRow :=
  upsertG healthKey ovHealth

/-! ## The two synchronization runs -/

/-- A catalogue row (track_dim). -/
structure CatTrack where
  track_uid : String
  isrc : String
  title : String
  artist : String
  deriving DecidableEq, Repr

/-- The snapshot date of a streams run: the override, else yesterday. -/
def streamsSnapshotDate (today : Int) (dayOverride : Option Int) : Int :=
  match dayOverride with
  | some d => d
  | none => today - 1

/-- The snapshot date of a health run: always today (the run accepts no
override parameter). -/
def healthSnapshotDate (today : Int) : Int := today

/-- Per-track upstream environment of a streams run: the parsed search
items (or the executor's post-retry failure) and the metrics response. -/
structure StreamsEnv where
  searchResp : Except ReqError (List SpotifyTrackItem)
  albumResp : Except ReqError AlbumResponse

/-- Mutable state of a streams run: the open transaction's view, the
durable (committed) table, and the three counters. -/
structure StreamsState where
  db : List StreamsRow
  committed : List StreamsRow
  processed : Nat
  errors : Nat
  total : Nat
  deriving Repr

/-- The counter value the loop body would persist for one track, if any. -/
def trackPersistedCount (e : StreamsEnv) (isrc : String) : Option Nat :=
  match e.searchResp with
  | .error _ => none
  | .ok items =>
    match search_track isrc items with
    | none => none
    | some info => streamPlaycount e.albumResp info.trackId

/-- One iteration of the streams loop: a search failure is caught, logged
and counted; an unresolved track or a missing playcount persists nothing;
otherwise the row upsert plus the counters.  No commit is issued here. -/
def streamsStep (user : String) (day : Int) (env : CatTrack → StreamsEnv)
    (st : StreamsState) (tr : CatTrack) : StreamsState :=
  match (env tr).searchResp with
  | .error _ => { st with errors := st.errors + 1 }
  | .ok items =>
    match search_track tr.isrc items with
    | none => st
    | some info =>
      match streamPlaycount (env tr).albumResp info.trackId with
      | none => st
      | some n =>
        { st with
          db := upsertStreams st.db ⟨"spotify", tr.track_uid, day, n, user⟩
          processed := st.processed + 1
          total := st.total + n }

/-- Outcome of a completed streams run. -/
structure StreamsOutcome where
  table : List StreamsRow
  processed : Nat
  errors : Nat
  total : Nat
  alert : Bool
  deriving Repr

/-- Embedding of `run_streams_collection`: snapshot date from the override
or yesterday, the loop folded over the catalogue, one commit after the
loop (and one more after the view refresh), and the anomaly alert sent
iff processed > 0 and the running total is 0. -/
def run_streams_collection (user : String) (dayOverride : Option Int)
    (today : Int) (tracks : List CatTrack) (env : CatTrack → StreamsEnv)
    (initTable : List StreamsRow) : StreamsOutcome :=
  let day := streamsSnapshotDate today dayOverride
  let fin := tracks.foldl (streamsStep user day env)
    ⟨initTable, initTable, 0, 0, 0⟩
  { table := fin.db
    processed := fin.processed
    errors := fin.errors
    total := fin.total
    alert := decide (0 < fin.processed) && decide (fin.total = 0) }

/-- The durable table when a streams run dies after the first k loop
iterations: the rollback returns the committed state of that moment. -/
def streamsCommittedAfter (user : String) (dayOverride : Option Int)
    (today : Int) (tracks : List CatTrack) (env : CatTrack → StreamsEnv)
    (initTable : List StreamsRow) (k : Nat) : List StreamsRow :=
  ((tracks.take k).foldl
    (streamsStep user (streamsSnapshotDate today dayOverride) env)
    ⟨initTable, initTable, 0, 0, 0⟩).committed

/-- Per-track upstream environment of a health run: the three Catalog A
attempt outcomes and the Catalog B response. -/
structure HealthEnv where
  apple0 : AppleAttempt
  apple1 : AppleAttempt
  apple2 : AppleAttempt
  spotifyResp : Except ReqError (List SpSearchItem)

/-- Mutable state of a health run. -/
structure HealthState where
  db : List HealthRow
  committed : List HealthRow
  checked : Nat
  errors : Nat
  deriving Repr

/-- A catalogue row with falsy title or artist is skipped by the health
loop (`if not title or not artist: continue`). -/
def skipTrack (tr : CatTrack) : Bool :=
  tr.title = "" || tr.artist = ""

/-- The snapshot row the health loop builds for one checked track. -/
def healthRowOf (user : String) (day : Int) (env : CatTrack → HealthEnv)
    (tr : CatTrack) : HealthRow :=
  ⟨day, tr.track_uid,
    check_apple_music_api tr.artist tr.title (env tr).apple0 (env tr).apple1
      (env tr).apple2,
    check_spotify_api tr.artist tr.title (env tr).spotifyResp,
    user⟩

/-- One iteration of the health loop: tracks with falsy metadata are
skipped; both platform checks run; the row upsert; after every 10th
checked track the transaction commits. -/
def healthStep (user : String) (day : Int) (env : CatTrack → HealthEnv)
    (st : HealthState) (tr : CatTrack) : HealthState :=
  if skipTrack tr then st
  else
    let db := upsertHealth st.db (healthRowOf user day env tr)
    let checked := st.checked + 1
    if checked % 10 == 0 then ⟨db, db, checked, st.errors⟩
    else ⟨db, st.committed, checked, st.errors⟩

/-- Embedding of `run_catalogue_health_check`: check date is today (no
override accepted), the loop folded over the catalogue with a commit per
10 checked tracks, and a final commit at run end.  The errors counter is
initialized and reported but never incremented in the source. -/
def run_catalogue_health_check (user : String) (today : Int)
    (tracks : List CatTrack) (env : CatTrack → HealthEnv)
    (initTable : List HealthRow) : HealthState :=
  let fin := tracks.foldl (healthStep user (healthSnapshotDate today) env)
    ⟨initTable, initTable, 0, 0⟩
  ⟨fin.db, fin.db, fin.checked, fin.errors⟩

/-- The durable table when a health run dies after the first k loop
iterations. -/
def healthCommittedAfter (user : String) (today : Int)
    (tracks : List CatTrack) (env : CatTrack → HealthEnv)
    (initTable : List HealthRow) (k : Nat) : List HealthRow :=
  ((tracks.take k).foldl (healthStep user (healthSnapshotDate today) env)
    ⟨initTable, initTable, 0, 0⟩).committed

/-- The streams loop raises out of the per-track body exactly on a search
failure (the metrics failure is swallowed inside fetch_album). -/
def isSearchError (e : StreamsEnv) : Bool :=
  match e.searchResp with
  | .error _ => true
  | .ok _ => false

/-- The snapshot row a streams run persists for one resolved track. -/
def streamsRowOf (user : String) (day : Int) (tr : CatTrack) (n : Nat) :
    StreamsRow :=
  ⟨"spotify", tr.track_uid, day, n, user⟩

/-- All rows one streams run upserts, in loop order. -/
def streamsRowsOf (user : String) (day : Int) (env : CatTrack → StreamsEnv)
    (tracks : List CatTrack) : List StreamsRow :=
  tracks.filterMap (fun tr =>
    (trackPersistedCount (env tr) tr.isrc).map (streamsRowOf user day tr))

/-- All rows one health run upserts, in loop order. -/
def healthRowsOf (user : String) (day : Int) (env : CatTrack → HealthEnv)
    (tracks : List CatTrack) : List HealthRow :=
  tracks.filterMap (fun tr =>
    if skipTrack tr then none else some (healthRowOf user day env tr))

/-- Repeated keyed upserts of a row list into a table. -/
def foldUpsert {R K : Type} [DecidableEq K] (key : R → K) (ov : R → R → R)
    (tbl : List R) (rows : List R) : List R :=
  rows.foldl (upsertG key ov) tbl

/-- Number of table rows holding a given key. -/
def countKey {R K : Type} [DecidableEq K] (key : R → K) (tbl : List R)
    (k : K) : Nat :=
  tbl.countP (fun r => key r == k)

/-! ## Generic upsert lemmas -/

section UpsertLemmas

variable {R K : Type} [DecidableEq K] (key : R → K) (ov : R → R → R)

theorem upsertG_of_hasKey (tbl : List R) (row : R)
    (h : tbl.any (fun r => key r == key row) = true) :
    upsertG key ov tbl row =
      tbl.map (fun r => if key r = key row then ov r row else r) := by
  unfold upsertG
  rw [if_pos h]

theorem upsertG_of_not_hasKey (tbl : List R) (row : R)
    (h : tbl.any (fun r => key r == key row) = false) :
    upsertG key ov tbl row = tbl ++ [row] := by
  unfold upsertG
  rw [h]
  simp

theorem filter_overwrite_ne
    (hkey : ∀ a b, key (ov a b) = key a) (tbl : List R) (row : R) (k : K)
    (hk : k ≠ key row) :
    (tbl.map (fun r => if key r = key row then ov r row else r)).filter
        (fun r => key r == k) =
      tbl.filter (fun r => key r == k) := by
  induction tbl with
  | nil => rfl
  | cons r t ih =>
    by_cases hr : key r = key row
    · have h2 : (key (ov r row) == k) = false := by
        rw [hkey r row, hr]
        exact beq_eq_false_iff_ne.mpr (fun hc => hk hc.symm)
      have h3 : (key r == k) = false := by
        rw [hr]
        exact beq_eq_false_iff_ne.mpr (fun hc => hk hc.symm)
      rw [List.map_cons, if_pos hr, List.filter_cons, List.filter_cons,
        h2, h3]
      simp only [Bool.false_eq_true, if_false]
      exact ih
    · rw [List.map_cons, if_neg hr, List.filter_cons, List.filter_cons]
      by_cases h4 : (key r == k) = true
      · rw [h4]
        simp only [if_true]
        rw [ih]
      · rw [Bool.not_eq_true] at h4
        rw [h4]
        simp only [Bool.false_eq_true, if_false]
        exact ih

theorem filter_upsertG_ne
    (hkey : ∀ a b, key (ov a b) = key a) (tbl : List R) (row : R) (k : K)
    (hk : k ≠ key row) :
    (upsertG key ov tbl row).filter (fun r => key r == k) =
      tbl.filter (fun r => key r == k) := by
  unfold upsertG
  by_cases h : tbl.any (fun r => key r == key row) = true
  · rw [if_pos h]
    exact filter_overwrite_ne key ov hkey tbl row k hk
  · rw [Bool.not_eq_true] at h
    rw [h]
    simp only [Bool.false_eq_true, if_false, List.filter_append]
    have : ([row].filter (fun r => key r == k)) = [] := by
      simp only [List.filter_cons, List.filter_nil]
      rw [beq_eq_false_iff_ne.mpr (fun hc => hk hc.symm)]
      simp
    rw [this, List.append_nil]

theorem filter_none_of_not_hasKey (tbl : List R) (k : K)
    (h : tbl.any (fun r => key r == k) = false) :
    tbl.filter (fun r => key r == k) = [] := by
  induction tbl with
  | nil => rfl
  | cons r t ih =>
    simp only [List.any_cons, Bool.or_eq_false_iff] at h
    simp only [List.filter_cons, h.1]
    exact ih h.2

theorem mem_filter_upsertG_self (tbl : List R) (row : R) (x : R)
    (hx : x ∈ (upsertG key ov tbl row).filter (fun r => key r == key row)) :
    (∃ a, x = ov a row) ∨ x = row := by
  unfold upsertG at hx
  by_cases h : tbl.any (fun r => key r == key row) = true
  · rw [if_pos h] at hx
    rcases List.mem_filter.mp hx with ⟨hmem, hkx⟩
    rcases List.mem_map.mp hmem with ⟨a, _, ha⟩
    by_cases hak : key a = key row
    · rw [if_pos hak] at ha
      exact Or.inl ⟨a, ha.symm⟩
    · rw [if_neg hak] at ha
      rw [← ha] at hkx
      exact absurd (beq_iff_eq.mp hkx) hak
  · rw [Bool.not_eq_true] at h
    rw [h] at hx
    simp only [Bool.false_eq_true, if_false, List.filter_append] at hx
    rw [filter_none_of_not_hasKey key tbl (key row) h] at hx
    simp only [List.nil_append, List.filter_cons] at hx
    rw [beq_self_eq_true] at hx
    simp only [if_true, List.filter_nil] at hx
    rcases List.mem_singleton.mp hx with h
    exact Or.inr h

theorem map_key_overwrite
    (hkey : ∀ a b, key (ov a b) = key a) (tbl : List R) (row : R) :
    (tbl.map (fun r => if key r = key row then ov r row else r)).map key =
      tbl.map key := by
  rw [List.map_map]
  apply List.map_congr_left
  intro a _
  by_cases ha : key a = key row
  · simp only [Function.comp, ha, if_true]
    rw [hkey, ha]
  · simp only [Function.comp, ha, if_false]

theorem nodup_key_upsertG
    (hkey : ∀ a b, key (ov a b) = key a) (tbl : List R) (row : R)
    (h : (tbl.map key).Nodup) :
    ((upsertG key ov tbl row).map key).Nodup := by
  unfold upsertG
  by_cases hc : tbl.any (fun r => key r == key row) = true
  · rw [if_pos hc, map_key_overwrite key ov hkey]
    exact h
  · rw [Bool.not_eq_true] at hc
    rw [hc]
    simp only [Bool.false_eq_true, if_false, List.map_append, List.map_cons,
      List.map_nil]
    rw [List.nodup_append]
    refine ⟨h, List.nodup_singleton _, ?_⟩
    intro k hk hk2
    rcases List.mem_map.mp hk with ⟨a, ha, hak⟩
    rcases List.mem_singleton.mp hk2 with h2
    have : (key a == key row) = true := by
      rw [hak, h2]
      exact beq_self_eq_true _
    have hall := List.any_eq_false.mp hc
    exact absurd this (by simpa using hall a ha)

theorem countP_eq_len_filter (tbl : List R) (p : R → Bool) :
    tbl.countP p = (tbl.filter p).length := by
  rw [List.countP_eq_length_filter]

theorem countKey_le_one_of_nodup (tbl : List R) (k : K)
    (h : (tbl.map key).Nodup) : countKey key tbl k ≤ 1 := by
  induction tbl with
  | nil => simp [countKey]
  | cons r t ih =>
    simp only [List.map_cons, List.nodup_cons] at h
    unfold countKey
    rw [List.countP_cons]
    by_cases hr : (key r == k) = true
    · have hk : key r = k := beq_iff_eq.mp hr
      have hzero : t.countP (fun x => key x == k) = 0 := by
        rw [List.countP_eq_zero]
        intro a ha hak
        apply h.1
        have hke : key a = key r := by rw [beq_iff_eq.mp hak, hk]
        exact List.mem_map.mpr ⟨a, ha, hke⟩
      simp [hr, hzero]
    · rw [Bool.not_eq_true] at hr
      simp only [hr]
      unfold countKey at ih
      simpa using ih h.2

theorem countKey_upsertG_self
    (hkey : ∀ a b, key (ov a b) = key a) (tbl : List R) (row : R)
    (h : (tbl.map key).Nodup) :
    countKey key (upsertG key ov tbl row) (key row) = 1 := by
  unfold upsertG
  by_cases hc : tbl.any (fun r => key r == key row) = true
  · rw [if_pos hc]
    have hmapeq : countKey key
        (tbl.map (fun r => if key r = key row then ov r row else r))
        (key row) = countKey key tbl (key row) := by
      unfold countKey
      rw [List.countP_map]
      apply List.countP_congr
      intro a _
      by_cases ha : key a = key row
      · simp [Function.comp, ha, hkey]
      · simp [Function.comp, ha]
    rw [hmapeq]
    have hge : 1 ≤ countKey key tbl (key row) := by
      rcases List.any_eq_true.mp hc with ⟨a, ha, hak⟩
      unfold countKey
      rw [countP_eq_len_filter]
      have : a ∈ tbl.filter (fun r => key r == key row) :=
        List.mem_filter.mpr ⟨ha, hak⟩
      exact List.length_pos.mpr (fun hnil => by simp [hnil] at this)
    have hle := countKey_le_one_of_nodup key tbl (key row) h
    omega
  · rw [Bool.not_eq_true] at hc
    rw [hc]
    simp only [Bool.false_eq_true, if_false]
    unfold countKey
    rw [List.countP_append]
    have h0 : tbl.countP (fun r => key r == key row) = 0 := by
      rw [countP_eq_len_filter, filter_none_of_not_hasKey key tbl _ hc]
      rfl
    simp [h0]

theorem upsertG_id (tbl : List R) (row : R)
    (h : tbl.any (fun r => key r == key row) = true)
    (hid : ∀ x ∈ tbl, key x = key row → ov x row = x) :
    upsertG key ov tbl row = tbl := by
  rw [upsertG_of_hasKey key ov tbl row h]
  have : tbl.map (fun r => if key r = key row then ov r row else r) =
      tbl.map id := by
    apply List.map_congr_left
    intro a ha
    by_cases hak : key a = key row
    · simp only [hak, if_true, id]
      exact hid a ha hak
    · simp [hak, id]
  rw [this, List.map_id]

theorem any_key_upsertG
    (hkey : ∀ a b, key (ov a b) = key a) (tbl : List R) (row : R) (k : K)
    (h : tbl.any (fun r => key r == k) = true) :
    (upsertG key ov tbl row).any (fun r => key r == k) = true := by
  unfold upsertG
  rcases List.any_eq_true.mp h with ⟨a, ha, hak⟩
  by_cases hc : tbl.any (fun r => key r == key row) = true
  · rw [if_pos hc]
    apply List.any_eq_true.mpr
    refine ⟨if key a = key row then ov a row else a,
      List.mem_map.mpr ⟨a, ha, rfl⟩, ?_⟩
    by_cases hak2 : key a = key row
    · simp only [hak2, if_true]
      rw [show key (ov a row) = key a from hkey a row, ← hak2] at *
      exact hak
    · simpa [hak2] using hak
  · rw [Bool.not_eq_true] at hc
    rw [hc]
    simp only [Bool.false_eq_true, if_false]
    exact List.any_eq_true.mpr ⟨a, List.mem_append_left _ ha, hak⟩

theorem any_key_upsertG_self
    (hkey : ∀ a b, key (ov a b) = key a) (tbl : List R) (row : R) :
    (upsertG key ov tbl row).any (fun r => key r == key row) = true := by
  unfold upsertG
  by_cases hc : tbl.any (fun r => key r == key row) = true
  · rw [if_pos hc]
    rcases List.any_eq_true.mp hc with ⟨a, ha, hak⟩
    apply List.any_eq_true.mpr
    refine ⟨if key a = key row then ov a row else a,
      List.mem_map.mpr ⟨a, ha, rfl⟩, ?_⟩
    by_cases hak2 : key a = key row
    · simp only [hak2, if_true]
      rw [show key (ov a row) = key a from hkey a row]
      exact hak
    · simp only [hak2, if_false]
      exact hak
  · rw [Bool.not_eq_true] at hc
    rw [hc]
    simp only [Bool.false_eq_true, if_false]
    exact List.any_eq_true.mpr ⟨row, List.mem_append_right _ (by simp),
      beq_self_eq_true _⟩

end UpsertLemmas

section FoldUpsertLemmas

variable {R K : Type} [DecidableEq K] (key : R → K) (ov : R → R → R)

theorem foldUpsert_cons (tbl : List R) (r : R) (rs : List R) :
    foldUpsert key ov tbl (r :: rs) =
      foldUpsert key ov (upsertG key ov tbl r) rs := rfl

theorem foldUpsert_append (tbl : List R) (u v : List R) :
    foldUpsert key ov tbl (u ++ v) =
      foldUpsert key ov (foldUpsert key ov tbl u) v := by
  unfold foldUpsert
  rw [List.foldl_append]

theorem filter_foldUpsert_ne
    (hkey : ∀ a b, key (ov a b) = key a) (rows : List R) (tbl : List R)
    (k : K) (hk : ∀ r ∈ rows, key r ≠ k) :
    (foldUpsert key ov tbl rows).filter (fun r => key r == k) =
      tbl.filter (fun r => key r == k) := by
  induction rows generalizing tbl with
  | nil => rfl
  | cons r rs ih =>
    rw [foldUpsert_cons,
      ih _ (fun x hx => hk x (List.mem_cons_of_mem r hx))]
    exact filter_upsertG_ne key ov hkey tbl r k
      (fun he => hk r (List.mem_cons_self r rs) he.symm)

theorem any_foldUpsert
    (hkey : ∀ a b, key (ov a b) = key a) (rows : List R) (tbl : List R)
    (k : K) (h : tbl.any (fun r => key r == k) = true) :
    (foldUpsert key ov tbl rows).any (fun r => key r == k) = true := by
  induction rows generalizing tbl with
  | nil => exact h
  | cons r rs ih =>
    rw [foldUpsert_cons]
    exact ih _ (any_key_upsertG key ov hkey tbl r k h)

theorem nodup_foldUpsert
    (hkey : ∀ a b, key (ov a b) = key a) (rows : List R) (tbl : List R)
    (h : (tbl.map key).Nodup) :
    ((foldUpsert key ov tbl rows).map key).Nodup := by
  induction rows generalizing tbl with
  | nil => exact h
  | cons r rs ih =>
    rw [foldUpsert_cons]
    exact ih _ (nodup_key_upsertG key ov hkey tbl r h)

theorem foldUpsert_idem
    (hkey : ∀ a b, key (ov a b) = key a)
    (habs : ∀ a b, ov (ov a b) b = ov a b)
    (hself : ∀ a, ov a a = a)
    (rows : List R) (hnd : (rows.map key).Nodup) (tbl : List R) :
    foldUpsert key ov (foldUpsert key ov tbl rows) rows =
      foldUpsert key ov tbl rows := by
  induction rows generalizing tbl with
  | nil => rfl
  | cons r rs ih =>
    simp only [List.map_cons, List.nodup_cons] at hnd
    have hkrs : ∀ y ∈ rs, key y ≠ key r := by
      intro y hy he
      exact hnd.1 (by rw [← he]; exact List.mem_map.mpr ⟨y, hy, rfl⟩)
    rw [foldUpsert_cons, foldUpsert_cons]
    have hT : upsertG key ov (foldUpsert key ov (upsertG key ov tbl r) rs) r
        = foldUpsert key ov (upsertG key ov tbl r) rs := by
      apply upsertG_id
      · exact any_foldUpsert key ov hkey rs _ (key r)
          (any_key_upsertG_self key ov hkey tbl r)
      · intro x hx hxk
        have hxf : x ∈ (foldUpsert key ov (upsertG key ov tbl r) rs).filter
            (fun y => key y == key r) :=
          List.mem_filter.mpr ⟨hx, beq_iff_eq.mpr hxk⟩
        rw [filter_foldUpsert_ne key ov hkey rs _ (key r) hkrs] at hxf
        rcases mem_filter_upsertG_self key ov tbl r x hxf with ⟨a, ha⟩ | hxr
        · rw [ha]; exact habs a r
        · rw [hxr]; exact hself r
    rw [hT]
    exact ih hnd.2 (upsertG key ov tbl r)

theorem countKey_foldUpsert_self
    (hkey : ∀ a b, key (ov a b) = key a)
    (rows : List R) (tbl : List R) (hndt : (tbl.map key).Nodup)
    (hndr : (rows.map key).Nodup) (r : R) (hr : r ∈ rows) :
    countKey key (foldUpsert key ov tbl rows) (key r) = 1 := by
  rcases List.append_of_mem hr with ⟨u, v, rfl⟩
  have hmap : (List.map key (u ++ r :: v)).Nodup := hndr
  rw [List.map_append] at hmap
  have hrv : ((r :: v).map key).Nodup := (List.nodup_append.mp hmap).2.1
  have hknv : key r ∉ v.map key := (List.nodup_cons.mp hrv).1
  have hkv : ∀ y ∈ v, key y ≠ key r := by
    intro y hy he
    exact hknv (by rw [← he]; exact List.mem_map.mpr ⟨y, hy, rfl⟩)
  rw [foldUpsert_append, foldUpsert_cons]
  unfold countKey
  rw [countP_eq_len_filter,
    filter_foldUpsert_ne key ov hkey v _ (key r) hkv,
    ← countP_eq_len_filter]
  have hTnd : ((foldUpsert key ov tbl u).map key).Nodup :=
    nodup_foldUpsert key ov hkey u tbl hndt
  exact countKey_upsertG_self key ov hkey _ r hTnd

theorem mem_key_foldUpsert_self
    (hkey : ∀ a b, key (ov a b) = key a)
    (rows : List R) (tbl : List R) (hndr : (rows.map key).Nodup)
    (r : R) (hr : r ∈ rows) (x : R)
    (hx : x ∈ foldUpsert key ov tbl rows) (hxk : key x = key r) :
    (∃ a, x = ov a r) ∨ x = r := by
  rcases List.append_of_mem hr with ⟨u, v, rfl⟩
  have hmap : (List.map key (u ++ r :: v)).Nodup := hndr
  rw [List.map_append] at hmap
  have hrv : ((r :: v).map key).Nodup := (List.nodup_append.mp hmap).2.1
  have hknv : key r ∉ v.map key := (List.nodup_cons.mp hrv).1
  have hkv : ∀ y ∈ v, key y ≠ key r := by
    intro y hy he
    exact hknv (by rw [← he]; exact List.mem_map.mpr ⟨y, hy, rfl⟩)
  rw [foldUpsert_append, foldUpsert_cons] at hx
  have hxf : x ∈ (foldUpsert key ov
      (upsertG key ov (foldUpsert key ov tbl u) r) v).filter
      (fun y => key y == key r) :=
    List.mem_filter.mpr ⟨hx, beq_iff_eq.mpr hxk⟩
  rw [filter_foldUpsert_ne key ov hkey v _ (key r) hkv] at hxf
  exact mem_filter_upsertG_self key ov _ r x hxf

end FoldUpsertLemmas

/-! ## Key and overwrite facts for the two concrete tables -/

theorem streamsKey_ovStreams (a b : StreamsRow) :
    streamsKey (ovStreams a b) = streamsKey a := rfl

theorem ovStreams_absorb (a b : StreamsRow) :
    ovStreams (ovStreams a b) b = ovStreams a b := rfl

theorem ovStreams_self (a : StreamsRow) : ovStreams a a = a := rfl

theorem ovStreams_playcount (a b : StreamsRow) :
    (ovStreams a b).playcount = b.playcount := rfl

theorem healthKey_ovHealth (a b : HealthRow) :
    healthKey (ovHealth a b) = healthKey a := rfl

theorem ovHealth_absorb (a b : HealthRow) :
    ovHealth (ovHealth a b) b = ovHealth a b := rfl

theorem ovHealth_self (a : HealthRow) : ovHealth a a = a := rfl

/-! ## Streams run characterization -/

theorem streamsStep_char (user : String) (day : Int)
    (env : CatTrack → StreamsEnv) (st : StreamsState) (tr : CatTrack) :
    streamsStep user day env st tr =
      if isSearchError (env tr) then { st with errors := st.errors + 1 }
      else
        match trackPersistedCount (env tr) tr.isrc with
        | none => st
        | some n =>
          { st with
            db := upsertStreams st.db (streamsRowOf user day tr n)
            processed := st.processed + 1
            total := st.total + n } := by
  unfold streamsStep trackPersistedCount isSearchError streamsRowOf
  cases hs : (env tr).searchResp with
  | error e => simp
  | ok items =>
    simp only [if_false]
    cases hst : search_track tr.isrc items with
    | none => simp
    | some info =>
      cases hp : streamPlaycount (env tr).albumResp info.trackId <;> simp

theorem streams_fold_committed (user : String) (day : Int)
    (env : CatTrack → StreamsEnv) (tracks : List CatTrack)
    (st : StreamsState) :
    (tracks.foldl (streamsStep user day env) st).committed = st.committed := by
  induction tracks generalizing st with
  | nil => rfl
  | cons tr rest ih =>
    rw [List.foldl_cons, ih]
    rw [streamsStep_char]
    by_cases he : isSearchError (env tr) = true
    · simp [he]
    · rw [Bool.not_eq_true] at he
      simp only [he, Bool.false_eq_true, if_false]
      cases trackPersistedCount (env tr) tr.isrc <;> rfl

theorem streams_fold_db (user : String) (day : Int)
    (env : CatTrack → StreamsEnv) (tracks : List CatTrack)
    (st : StreamsState) :
    (tracks.foldl (streamsStep user day env) st).db =
      foldUpsert streamsKey ovStreams st.db
        (streamsRowsOf user day env tracks) := by
  induction tracks generalizing st with
  | nil => rfl
  | cons tr rest ih =>
    rw [List.foldl_cons, ih, streamsStep_char]
    unfold streamsRowsOf
    rw [List.filterMap_cons]
    by_cases he : isSearchError (env tr) = true
    · have hnone : trackPersistedCount (env tr) tr.isrc = none := by
        unfold trackPersistedCount
        unfold isSearchError at he
        cases hs : (env tr).searchResp with
        | error e => rfl
        | ok items => rw [hs] at he; simp at he
      simp [he, hnone, streamsRowsOf]
    · rw [Bool.not_eq_true] at he
      simp only [he, Bool.false_eq_true, if_false]
      cases hp : trackPersistedCount (env tr) tr.isrc with
      | none => simp [streamsRowsOf]
      | some n =>
        show foldUpsert streamsKey ovStreams
            (upsertStreams st.db (streamsRowOf user day tr n))
            (streamsRowsOf user day env rest) =
          foldUpsert streamsKey ovStreams st.db
            (streamsRowOf user day tr n :: streamsRowsOf user day env rest)
        rw [foldUpsert_cons]
        rfl

theorem streams_fold_processed (user : String) (day : Int)
    (env : CatTrack → StreamsEnv) (tracks : List CatTrack)
    (st : StreamsState) :
    (tracks.foldl (streamsStep user day env) st).processed =
      st.processed +
        tracks.countP
          (fun tr => (trackPersistedCount (env tr) tr.isrc).isSome) := by
  induction tracks generalizing st with
  | nil => simp
  | cons tr rest ih =>
    rw [List.foldl_cons, ih, List.countP_cons, streamsStep_char]
    by_cases he : isSearchError (env tr) = true
    · have hnone : trackPersistedCount (env tr) tr.isrc = none := by
        unfold trackPersistedCount
        unfold isSearchError at he
        cases hs : (env tr).searchResp with
        | error e => rfl
        | ok items => rw [hs] at he; simp at he
      simp [he, hnone]
    · rw [Bool.not_eq_true] at he
      simp only [he, Bool.false_eq_true, if_false]
      cases hp : trackPersistedCount (env tr) tr.isrc with
      | none => simp
      | some n => simp; omega

theorem streams_fold_errors (user : String) (day : Int)
    (env : CatTrack → StreamsEnv) (tracks : List CatTrack)
    (st : StreamsState) :
    (tracks.foldl (streamsStep user day env) st).errors =
      st.errors + tracks.countP (fun tr => isSearchError (env tr)) := by
  induction tracks generalizing st with
  | nil => simp
  | cons tr rest ih =>
    rw [List.foldl_cons, ih, List.countP_cons, streamsStep_char]
    by_cases he : isSearchError (env tr) = true
    · simp [he]; omega
    · rw [Bool.not_eq_true] at he
      simp only [he, Bool.false_eq_true, if_false]
      cases hp : trackPersistedCount (env tr) tr.isrc with
      | none => simp [he]
      | some n => simp [he]

theorem streams_fold_total (user : String) (day : Int)
    (env : CatTrack → StreamsEnv) (tracks : List CatTrack)
    (st : StreamsState) :
    (tracks.foldl (streamsStep user day env) st).total =
      st.total +
        (tracks.map
          (fun tr => (trackPersistedCount (env tr) tr.isrc).getD 0)).sum := by
  induction tracks generalizing st with
  | nil => simp
  | cons tr rest ih =>
    rw [List.foldl_cons, ih, List.map_cons, List.sum_cons, streamsStep_char]
    by_cases he : isSearchError (env tr) = true
    · have hnone : trackPersistedCount (env tr) tr.isrc = none := by
        unfold trackPersistedCount
        unfold isSearchError at he
        cases hs : (env tr).searchResp with
        | error e => rfl
        | ok items => rw [hs] at he; simp at he
      simp [he, hnone]
    · rw [Bool.not_eq_true] at he
      simp only [he, Bool.false_eq_true, if_false]
      cases hp : trackPersistedCount (env tr) tr.isrc with
      | none => simp
      | some n => simp; omega

/-! ## Health run characterization -/

theorem health_fold_db (user : String) (day : Int)
    (env : CatTrack → HealthEnv) (tracks : List CatTrack)
    (st : HealthState) :
    (tracks.foldl (healthStep user day env) st).db =
      foldUpsert healthKey ovHealth st.db
        (healthRowsOf user day env tracks) := by
  induction tracks generalizing st with
  | nil => rfl
  | cons tr rest ih =>
    rw [List.foldl_cons, ih]
    unfold healthRowsOf
    rw [List.filterMap_cons]
    by_cases hskip : skipTrack tr = true
    · simp [healthStep, hskip, healthRowsOf]
    · rw [Bool.not_eq_true] at hskip
      simp only [hskip, Bool.false_eq_true, if_false]
      rw [foldUpsert_cons]
      unfold healthStep
      rw [hskip]
      simp only [Bool.false_eq_true, if_false]
      by_cases hb : (st.checked + 1) % 10 == 0
      · simp only [hb, if_true]
        rfl
      · rw [Bool.not_eq_true] at hb
        simp only [hb, Bool.false_eq_true, if_false]
        rfl

theorem health_fold_errors (user : String) (day : Int)
    (env : CatTrack → HealthEnv) (tracks : List CatTrack)
    (st : HealthState) :
    (tracks.foldl (healthStep user day env) st).errors = st.errors := by
  induction tracks generalizing st with
  | nil => rfl
  | cons tr rest ih =>
    rw [List.foldl_cons, ih]
    unfold healthStep
    by_cases hskip : skipTrack tr = true
    · simp [hskip]
    · rw [Bool.not_eq_true] at hskip
      simp only [hskip, Bool.false_eq_true, if_false]
      by_cases hb : (st.checked + 1) % 10 == 0
      · simp [hb]
      · rw [Bool.not_eq_true] at hb
        simp [hb]

theorem health_fold_checked (user : String) (day : Int)
    (env : CatTrack → HealthEnv) (tracks : List CatTrack)
    (st : HealthState) (h : ∀ t ∈ tracks, skipTrack t = false) :
    (tracks.foldl (healthStep user day env) st).checked =
      st.checked + tracks.length := by
  induction tracks generalizing st with
  | nil => simp
  | cons tr rest ih =>
    rw [List.foldl_cons,
      ih _ (fun t ht => h t (List.mem_cons_of_mem tr ht))]
    have hskip := h tr (List.mem_cons_self tr rest)
    unfold healthStep
    rw [hskip]
    simp only [Bool.false_eq_true, if_false, List.length_cons]
    by_cases hb : (st.checked + 1) % 10 == 0
    · simp only [hb, if_true]
      show st.checked + 1 + rest.length = st.checked + (rest.length + 1)
      omega
    · rw [Bool.not_eq_true] at hb
      simp only [hb, Bool.false_eq_true, if_false]
      show st.checked + 1 + rest.length = st.checked + (rest.length + 1)
      omega

/-- A commit happens exactly at a multiple-of-10 boundary, so whenever the
checked counter sits at a boundary the committed table is the full view. -/
theorem health_fold_commit_boundary (user : String) (day : Int)
    (env : CatTrack → HealthEnv) (tracks : List CatTrack)
    (st : HealthState) (h : st.checked % 10 = 0 → st.committed = st.db) :
    (tracks.foldl (healthStep user day env) st).checked % 10 = 0 →
      (tracks.foldl (healthStep user day env) st).committed =
        (tracks.foldl (healthStep user day env) st).db := by
  induction tracks generalizing st with
  | nil => exact h
  | cons tr rest ih =>
    rw [List.foldl_cons]
    apply ih
    unfold healthStep
    by_cases hskip : skipTrack tr = true
    · simp only [hskip, if_true]
      exact h
    · rw [Bool.not_eq_true] at hskip
      simp only [hskip, Bool.false_eq_true, if_false]
      by_cases hb : ((st.checked + 1) % 10 == 0) = true
      · simp only [hb, if_true]
        intro _
        trivial
      · rw [Bool.not_eq_true] at hb
        simp only [hb, Bool.false_eq_true, if_false]
        intro hc
        exact absurd (by simpa using hc) (by simpa using hb)

/-- Fewer than 10 loop iterations past a boundary never commit: the
durable table is unchanged until the next full batch. -/
theorem health_fold_window (user : String) (day : Int)
    (env : CatTrack → HealthEnv) (q : List CatTrack) (st : HealthState)
    (h : st.checked % 10 + q.length < 10) :
    (q.foldl (healthStep user day env) st).committed = st.committed := by
  induction q generalizing st with
  | nil => rfl
  | cons tr rest ih =>
    rw [List.foldl_cons]
    unfold healthStep
    by_cases hskip : skipTrack tr = true
    · simp only [hskip, if_true]
      apply ih
      simp only [List.length_cons] at h
      omega
    · rw [Bool.not_eq_true] at hskip
      simp only [hskip, Bool.false_eq_true, if_false]
      have hmod : (st.checked + 1) % 10 = st.checked % 10 + 1 := by
        simp only [List.length_cons] at h
        omega
      have hb : ((st.checked + 1) % 10 == 0) = false := by
        rw [hmod]
        simp
      rw [hb]
      simp only [Bool.false_eq_true, if_false]
      have := ih
        ⟨upsertHealth st.db (healthRowOf user day env tr), st.committed,
          st.checked + 1, st.errors⟩
      simp only at this
      apply this
      simp only [List.length_cons] at h
      omega

/-! ## Further resolver and extractor lemmas -/

theorem selectBest_eq_none_iff (isrc : String)
    (items : List SpotifyTrackItem) :
    selectBest isrc items = none ↔ items = [] := by
  cases items with
  | nil => simp [selectBest]
  | cons x xs =>
    unfold selectBest
    cases hf : (x :: xs).find? (isrcMatches isrc) with
    | some t => simp
    | none => simp

theorem extractPlaycount_isSome_iff (tid : String) (l : List AlbumItem) :
    (extractPlaycount tid l).isSome = true ↔
      ∃ item ∈ l, ∃ t, item.track = some t ∧
        t.uri = some ("spotify:track:" ++ tid) ∧
        (validCount t.playcount).isSome = true := by
  induction l with
  | nil => simp [extractPlaycount]
  | cons item rest ih =>
    cases htr : item.track with
    | none =>
      have hstep : extractPlaycount tid (item :: rest) =
          extractPlaycount tid rest := by
        simp only [extractPlaycount, htr]
      rw [hstep, ih]
      constructor
      · rintro ⟨i, hi, t, ht, hu, hv⟩
        exact ⟨i, List.mem_cons_of_mem _ hi, t, ht, hu, hv⟩
      · rintro ⟨i, hi, t, ht, hu, hv⟩
        rcases List.mem_cons.mp hi with rfl | hi'
        · rw [htr] at ht
          exact absurd ht (by simp)
        · exact ⟨i, hi', t, ht, hu, hv⟩
    | some t =>
      have hstep : extractPlaycount tid (item :: rest) =
          if t.uri = some ("spotify:track:" ++ tid) then
            match validCount t.playcount with
            | some n => some n
            | none => extractPlaycount tid rest
          else extractPlaycount tid rest := by
        simp only [extractPlaycount, htr]
      rw [hstep]
      by_cases hu : t.uri = some ("spotify:track:" ++ tid)
      · rw [if_pos hu]
        cases hv : validCount t.playcount with
        | some n =>
          show (some n : Option Nat).isSome = true ↔ _
          simp only [Option.isSome_some, true_iff]
          exact ⟨item, List.mem_cons_self _ _, t, htr, hu, by rw [hv]; rfl⟩
        | none =>
          show (extractPlaycount tid rest).isSome = true ↔ _
          rw [ih]
          constructor
          · rintro ⟨i, hi, t', ht', hu', hv'⟩
            exact ⟨i, List.mem_cons_of_mem _ hi, t', ht', hu', hv'⟩
          · rintro ⟨i, hi, t', ht', hu', hv'⟩
            rcases List.mem_cons.mp hi with rfl | hi'
            · rw [htr] at ht'
              have : t' = t := (Option.some.inj ht').symm
              rw [this, hv] at hv'
              exact absurd hv' (by simp)
            · exact ⟨i, hi', t', ht', hu', hv'⟩
      · rw [if_neg hu]
        rw [ih]
        constructor
        · rintro ⟨i, hi, t', ht', hu', hv'⟩
          exact ⟨i, List.mem_cons_of_mem _ hi, t', ht', hu', hv'⟩
        · rintro ⟨i, hi, t', ht', hu', hv'⟩
          rcases List.mem_cons.mp hi with rfl | hi'
          · rw [htr] at ht'
            have : t' = t := (Option.some.inj ht').symm
            rw [this] at hu'
            exact absurd hu' hu
          · exact ⟨i, hi', t', ht', hu', hv'⟩

/-! # Claims -/

/-- C2 counterexample: when all three attempts fail, the executor
re-raises the third attempt's error unchanged — the surfaced failure is
the raw underlying error, carrying no typed exhausted-retries marker and
therefore not distinguishable by type from a first-attempt fatal error. -/
theorem C2_counterexample :
    spotify_request_with_retries
        (fun _ =>
          (Except.error (ReqError.httpError 500) : Except ReqError Unit)) =
      (Except.error (ReqError.httpError 500), 3) ∧
    (ReqError.httpError 500).isExhausted = false :=
  ⟨rfl, rfl⟩

/-- C2 amended: an outbound call failing on all attempts makes exactly 3
attempts and then re-raises the final attempt's error unchanged (not a
distinct typed exhaustion failure); failures on earlier attempts are
invisible to the caller; a success on any attempt returns that response
with no further attempts. -/
theorem C2_retry_executor {R : Type} (call : Nat → Except ReqError R) :
    (∀ e0 e1 e2, call 0 = .error e0 → call 1 = .error e1 →
      call 2 = .error e2 →
      spotify_request_with_retries call = (.error e2, 3)) ∧
    (∀ r, call 0 = .ok r →
      spotify_request_with_retries call = (.ok r, 1)) ∧
    (∀ e0 r, call 0 = .error e0 → call 1 = .ok r →
      spotify_request_with_retries call = (.ok r, 2)) ∧
    (∀ e0 e1 r, call 0 = .error e0 → call 1 = .error e1 → call 2 = .ok r →
      spotify_request_with_retries call = (.ok r, 3)) := by
  refine ⟨?_, ?_, ?_, ?_⟩
  · intro e0 e1 e2 h0 h1 h2
    unfold spotify_request_with_retries
    rw [h0, h1, h2]
  · intro r h0
    unfold spotify_request_with_retries
    rw [h0]
  · intro e0 r h0 h1
    unfold spotify_request_with_retries
    rw [h0, h1]
  · intro e0 e1 r h0 h1 h2
    unfold spotify_request_with_retries
    rw [h0, h1, h2]

/-- C2 witness: a call failing once then succeeding returns the success
after exactly 2 attempts. -/
theorem C2_retry_executor_witness :
    (fun k => if k = 0 then
        (Except.error (ReqError.connectionError "boom") : Except ReqError Nat)
      else Except.ok 7) 0 =
        Except.error (ReqError.connectionError "boom") ∧
    spotify_request_with_retries
      (fun k => if k = 0 then
          (Except.error (ReqError.connectionError "boom") :
            Except ReqError Nat)
        else Except.ok 7) = (Except.ok 7, 2) :=
  ⟨rfl, (C2_retry_executor _).2.2.1 _ _ rfl rfl⟩

/-- C4: the track resolver selects the first candidate whose embedded code
equals the queried code case-insensitively when one exists, otherwise the
first candidate; it returns None exactly when the candidate list is empty
or the selected candidate does not carry both a (truthy) track identifier
and a (truthy) album identifier — both are required, so lacking either
one yields None; with both present it returns the selected candidate's
identifiers. -/
theorem C4_track_resolver (isrc : String) (items : List SpotifyTrackItem) :
    (∀ t, items.find? (isrcMatches isrc) = some t →
      selectBest isrc items = some t) ∧
    (items.find? (isrcMatches isrc) = none →
      selectBest isrc items = items.head?) ∧
    (search_track isrc items = none ↔ items = [] ∨
      ∃ best, selectBest isrc items = some best ∧
        ¬(strTruthy best.id = true ∧ strTruthy best.albumId = true)) ∧
    (∀ best, selectBest isrc items = some best →
      strTruthy best.id = true → strTruthy best.albumId = true →
      search_track isrc items = some ⟨best.id.getD "", best.albumId.getD "",
        best.name, joinArtists best.artistNames⟩) := by
  refine ⟨?_, ?_, ⟨?_, ?_⟩, ?_⟩
  · intro t h
    unfold selectBest
    rw [h]
  · intro h
    unfold selectBest
    rw [h]
  · intro h
    cases hs : selectBest isrc items with
    | none => exact Or.inl ((selectBest_eq_none_iff isrc items).mp hs)
    | some best =>
      have hstep : search_track isrc items =
          if strTruthy best.id && strTruthy best.albumId then
            some ⟨best.id.getD "", best.albumId.getD "", best.name,
              joinArtists best.artistNames⟩
          else none := by
        unfold search_track
        rw [hs]
      right
      refine ⟨best, rfl, ?_⟩
      rintro ⟨h1, h2⟩
      rw [hstep, h1, h2] at h
      simp at h
  · intro h
    rcases h with hnil | ⟨best, hb, hnb⟩
    · subst hnil
      rfl
    · have hstep : search_track isrc items =
          if strTruthy best.id && strTruthy best.albumId then
            some ⟨best.id.getD "", best.albumId.getD "", best.name,
              joinArtists best.artistNames⟩
          else none := by
        unfold search_track
        rw [hb]
      rw [hstep]
      have hfalse : (strTruthy best.id && strTruthy best.albumId) = false := by
        cases h1 : strTruthy best.id <;> cases h2 : strTruthy best.albumId <;>
          simp_all
      rw [hfalse]
      simp
  · intro best hb h1 h2
    have hstep : search_track isrc items =
        if strTruthy best.id && strTruthy best.albumId then
          some ⟨best.id.getD "", best.albumId.getD "", best.name,
            joinArtists best.artistNames⟩
        else none := by
      unfold search_track
      rw [hb]
    rw [hstep, h1, h2]
    simp

/-- C4 witness: with a first candidate whose code differs and a second
whose code matches up to case, the resolver selects the second. -/
theorem C4_witness :
    selectBest "ISRC123"
        [⟨some "t1", some "a1", some "N1", [some "A"], some "OTHER"⟩,
         ⟨some "t2", some "a2", some "N2", [some "B"], some "isrc123"⟩] =
      some ⟨some "t2", some "a2", some "N2", [some "B"], some "isrc123"⟩ :=
  (C4_track_resolver "ISRC123" _).1 _ (by decide)

/-- C5: the metrics extractor yields a counter exactly when the fetched
response has a data envelope and some item whose track uri equals the
target uri carries a present, all-digit counter (zero included, as the
digit string "0"); a failed request, a missing envelope, a missing field
or a non-numeric value all yield no metric, and a track with no metric
persists nothing (its state's table is unchanged). -/
theorem C5_metrics_extraction (resp : Except ReqError AlbumResponse)
    (tid : String) :
    ((streamPlaycount resp tid).isSome = true ↔
      ∃ rj au, resp = Except.ok rj ∧ rj.data = some au ∧
        ∃ item ∈ au.items, ∃ t, item.track = some t ∧
          t.uri = some ("spotify:track:" ++ tid) ∧
          (validCount t.playcount).isSome = true) ∧
    (∀ s n, validCount (some s) = some n ↔
      (s ≠ "" ∧ s.data.all Char.isDigit = true ∧ digitsToNat s.data = n)) ∧
    validCount (some "0") = some 0 ∧
    (∀ e, streamPlaycount (Except.error e) tid = none) ∧
    validCount none = none ∧
    (∀ user day env st tr, trackPersistedCount (env tr) tr.isrc = none →
      (streamsStep user day env st tr).db = st.db) := by
  refine ⟨?_, ?_, by decide, fun e => rfl, rfl, ?_⟩
  · cases resp with
    | error e =>
      have h0 : streamPlaycount (Except.error e) tid = none := rfl
      rw [h0]
      simp
    | ok rj =>
      cases hd : rj.data with
      | none =>
        have hf : fetch_album (Except.ok rj) = none := by
          show (if rj.data.isSome = true then some rj else none) = none
          rw [hd]
          rfl
        have h0 : streamPlaycount (Except.ok rj) tid = none := by
          show extractPlaycount tid (tracksData (fetch_album (Except.ok rj)))
            = none
          rw [hf]
          rfl
        rw [h0]
        simp [hd]
      | some au =>
        have hf : fetch_album (Except.ok rj) = some rj := by
          show (if rj.data.isSome = true then some rj else none) = some rj
          rw [hd]
          rfl
        have ht : tracksData (some rj) = au.items := by
          show (match rj.data with
            | none => ([] : List AlbumItem)
            | some au => au.items) = au.items
          rw [hd]
        have h0 : streamPlaycount (Except.ok rj) tid =
            extractPlaycount tid au.items := by
          show extractPlaycount tid (tracksData (fetch_album (Except.ok rj)))
            = extractPlaycount tid au.items
          rw [hf, ht]
        rw [h0, extractPlaycount_isSome_iff]
        constructor
        · rintro ⟨i, hi, t, ht, hu, hv⟩
          exact ⟨rj, au, rfl, hd, i, hi, t, ht, hu, hv⟩
        · rintro ⟨rj', au', hrj, hau, i, hi, t, ht, hu, hv⟩
          have h1 : rj = rj' := Except.ok.inj hrj
          rw [← h1, hd] at hau
          have h2 : au = au' := Option.some.inj hau
          rw [← h2] at hi
          exact ⟨i, hi, t, ht, hu, hv⟩
  · intro s n
    unfold validCount
    by_cases hs : s = ""
    · simp [hs]
    · by_cases hd : s.data.all Char.isDigit = true
      · simp only [hs, hd]
        simp [hs, hd]
      · rw [Bool.not_eq_true] at hd
        simp [hs, hd]
  · intro user day env st tr h
    rw [streamsStep_char]
    by_cases he : isSearchError (env tr) = true
    · simp [he]
    · rw [Bool.not_eq_true] at he
      simp [he, h]

/-- C5 witness: a response whose single item matches the target uri with
the digit counter 4821 yields a metric. -/
theorem C5_witness :
    (streamPlaycount
        (Except.ok ⟨some ⟨[⟨some ⟨some "spotify:track:T1", some "4821"⟩⟩]⟩⟩)
        "T1").isSome = true :=
  (C5_metrics_extraction _ "T1").1.mpr
    ⟨⟨some ⟨[⟨some ⟨some "spotify:track:T1", some "4821"⟩⟩]⟩⟩,
     ⟨[⟨some ⟨some "spotify:track:T1", some "4821"⟩⟩]⟩, rfl, rfl,
     ⟨some ⟨some "spotify:track:T1", some "4821"⟩⟩, by simp,
     ⟨some "spotify:track:T1", some "4821"⟩, rfl, rfl, rfl⟩

/-- C9: similar maps any two strings to a rational in [0, 1]; it returns
0 whenever either input is empty; and for every non-empty x it returns 1
whenever both inputs equal x up to letter case. -/
theorem C9_similar_contract :
    (∀ a b : String, 0 ≤ similar a b ∧ similar a b ≤ 1) ∧
    (∀ b : String, similar "" b = 0 ∧ similar b "" = 0) ∧
    (∀ x a b : String, x ≠ "" → strLower a = strLower x →
      strLower b = strLower x → similar a b = 1) := by
  refine ⟨?_, ?_, ?_⟩
  · intro a b
    unfold similar
    by_cases h : a = "" ∨ b = ""
    · rw [if_pos h]
      norm_num
    · rw [if_neg h]
      exact ⟨seqRatio_nonneg _ _, seqRatio_le_one _ _⟩
  · intro b
    constructor
    · unfold similar
      rw [if_pos (Or.inl rfl)]
    · unfold similar
      rw [if_pos (Or.inr rfl)]
  · intro x a b hx ha hb
    have hxl : strLower x ≠ "" := by
      intro h
      exact hx ((strLower_eq_empty_iff x).mp h)
    have ha' : a ≠ "" := by
      intro h
      rw [h] at ha
      exact hxl ha.symm
    have hb' : b ≠ "" := by
      intro h
      rw [h] at hb
      exact hxl hb.symm
    unfold similar
    rw [if_neg (by push_neg; exact ⟨ha', hb'⟩), ha, hb]
    apply seqRatio_self_eq_one
    intro hn
    apply hxl
    exact String.ext hn

/-- C9 witness: two spellings of the same non-empty word that differ only
in letter case have similarity exactly 1. -/
theorem C9_witness :
    ("Ab" : String) ≠ "" ∧ similar "aB" "AB" = 1 :=
  ⟨by decide,
   C9_similar_contract.2.2 "Ab" "aB" "AB" (by decide) (by decide)
     (by decide)⟩

/-- C8: Catalog A reports a track present exactly when some returned
result has artist similarity at least 0.85 and track-title or album-title
similarity at least 0.85; the rule accepts artist 0.9 with title 0.8 and
album 0.9 (album fallback), and rejects artist 0.8 whatever the title and
album scores. -/
theorem C8_apple_match_policy (artist title : String)
    (rs : List AppleResult) (a1 a2 : AppleAttempt) :
    (check_apple_music_api artist title (.okResults rs) a1 a2 = true ↔
      ∃ r ∈ rs, ((0.85 : ℚ) ≤ similar r.artistName artist ∧
        ((0.85 : ℚ) ≤ similar r.trackName title ∨
          (0.85 : ℚ) ≤ similar r.collectionName title))) ∧
    appleMatchRule 0.9 0.8 0.9 = true ∧
    (∀ sTrack sAlbum : ℚ, appleMatchRule 0.8 sTrack sAlbum = false) := by
  refine ⟨?_, ?_, ?_⟩
  · show scanAppleResults artist title rs = true ↔ _
    unfold scanAppleResults appleMatch appleMatchRule
    rw [List.any_eq_true]
    constructor
    · rintro ⟨r, hr, hm⟩
      refine ⟨r, hr, ?_⟩
      simp only [Bool.and_eq_true, Bool.or_eq_true, decide_eq_true_eq] at hm
      exact hm
    · rintro ⟨r, hr, hm⟩
      refine ⟨r, hr, ?_⟩
      simp only [Bool.and_eq_true, Bool.or_eq_true, decide_eq_true_eq]
      exact hm
  · norm_num [appleMatchRule]
  · intro sT sA
    have h : ¬ ((0.85 : ℚ) ≤ (0.8 : ℚ)) := by norm_num
    simp [appleMatchRule, h]

/-- C8 witness: the match rule at the claim's concrete scores. -/
theorem C8_witness :
    appleMatchRule 0.9 0.8 0.9 = true ∧ appleMatchRule 0.8 1 1 = false :=
  ⟨(C8_apple_match_policy "a" "t" [] .netError .netError).2.1,
   (C8_apple_match_policy "a" "t" [] .netError .netError).2.2 1 1⟩

/-! ## Property preservation through upserts (for the date claims) -/

theorem forall_mem_upsertG {R K : Type} [DecidableEq K] (key : R → K)
    (ov : R → R → R) (P : R → Prop) (tbl : List R) (row : R)
    (hP : ∀ x ∈ tbl, P x) (hrow : P row)
    (hov : ∀ a b, P a → P b → P (ov a b)) :
    ∀ x ∈ upsertG key ov tbl row, P x := by
  intro x hx
  unfold upsertG at hx
  by_cases hc : tbl.any (fun r => key r == key row) = true
  · rw [if_pos hc] at hx
    rcases List.mem_map.mp hx with ⟨a, ha, rfl⟩
    by_cases hak : key a = key row
    · rw [if_pos hak]
      exact hov a row (hP a ha) hrow
    · rw [if_neg hak]
      exact hP a ha
  · rw [Bool.not_eq_true] at hc
    rw [hc] at hx
    simp only [Bool.false_eq_true, if_false] at hx
    rcases List.mem_append.mp hx with h1 | h2
    · exact hP x h1
    · rw [List.mem_singleton.mp h2]
      exact hrow

theorem forall_mem_foldUpsert {R K : Type} [DecidableEq K] (key : R → K)
    (ov : R → R → R) (P : R → Prop) (tbl : List R) (rows : List R)
    (hP : ∀ x ∈ tbl, P x) (hrows : ∀ r ∈ rows, P r)
    (hov : ∀ a b, P a → P b → P (ov a b)) :
    ∀ x ∈ foldUpsert key ov tbl rows, P x := by
  induction rows generalizing tbl with
  | nil => exact hP
  | cons r rs ih =>
    rw [foldUpsert_cons]
    exact ih _
      (forall_mem_upsertG key ov P tbl r hP
        (hrows r (List.mem_cons_self r rs)) hov)
      (fun y hy => hrows y (List.mem_cons_of_mem r hy))

theorem mem_streamsRowsOf (user : String) (day : Int)
    (env : CatTrack → StreamsEnv) (tracks : List CatTrack) (r : StreamsRow)
    (hr : r ∈ streamsRowsOf user day env tracks) :
    ∃ tr ∈ tracks, ∃ n, trackPersistedCount (env tr) tr.isrc = some n ∧
      r = streamsRowOf user day tr n := by
  unfold streamsRowsOf at hr
  rcases List.mem_filterMap.mp hr with ⟨tr, htr, hmap⟩
  cases hp : trackPersistedCount (env tr) tr.isrc with
  | none =>
    rw [hp] at hmap
    simp at hmap
  | some n =>
    rw [hp] at hmap
    simp only [Option.map_some'] at hmap
    exact ⟨tr, htr, n, hp, (Option.some.inj hmap).symm⟩

theorem mem_healthRowsOf (user : String) (day : Int)
    (env : CatTrack → HealthEnv) (tracks : List CatTrack) (r : HealthRow)
    (hr : r ∈ healthRowsOf user day env tracks) :
    ∃ tr ∈ tracks, skipTrack tr = false ∧
      r = healthRowOf user day env tr := by
  unfold healthRowsOf at hr
  rcases List.mem_filterMap.mp hr with ⟨tr, htr, hmap⟩
  by_cases hs : skipTrack tr = true
  · rw [if_pos hs] at hmap
    exact absurd hmap (by simp)
  · rw [Bool.not_eq_true] at hs
    rw [hs] at hmap
    simp only [Bool.false_eq_true, if_false] at hmap
    exact ⟨tr, htr, hs, (Option.some.inj hmap).symm⟩

/-- C10: without an override the metrics run stamps every snapshot with
the previous calendar day while the availability check always stamps
today (its entry point accepts no date parameter at all), so by default
the two snapshot tables of one orchestrated run carry different dates. -/
theorem C10_snapshot_dates (today : Int) :
    streamsSnapshotDate today none = today - 1 ∧
    healthSnapshotDate today = today ∧
    streamsSnapshotDate today none ≠ healthSnapshotDate today ∧
    (∀ user tracks env r,
      r ∈ (run_streams_collection user none today tracks env []).table →
      r.stream_date = today - 1) ∧
    (∀ user tracks env r,
      r ∈ (run_catalogue_health_check user today tracks env []).db →
      r.check_date = today) := by
  refine ⟨rfl, rfl, ?_, ?_, ?_⟩
  · show today - 1 ≠ today
    omega
  · intro user tracks env r hr
    have hdb : (run_streams_collection user none today tracks env []).table =
        foldUpsert streamsKey ovStreams []
          (streamsRowsOf user (today - 1) env tracks) := by
      show (tracks.foldl
        (streamsStep user (streamsSnapshotDate today none) env)
        ⟨[], [], 0, 0, 0⟩).db = _
      rw [streams_fold_db]
      rfl
    rw [hdb] at hr
    refine forall_mem_foldUpsert streamsKey ovStreams
      (fun x => x.stream_date = today - 1) [] _ (by simp) ?_ ?_ r hr
    · intro x hx
      rcases mem_streamsRowsOf user (today - 1) env tracks x hx with
        ⟨tr, _, n, _, hxe⟩
      rw [hxe]
      rfl
    · intro a b ha _
      exact ha
  · intro user tracks env r hr
    have hdb : (run_catalogue_health_check user today tracks env []).db =
        foldUpsert healthKey ovHealth []
          (healthRowsOf user (healthSnapshotDate today) env tracks) := by
      show (tracks.foldl
        (healthStep user (healthSnapshotDate today) env)
        ⟨[], [], 0, 0⟩).db = _
      rw [health_fold_db]
    rw [hdb] at hr
    refine forall_mem_foldUpsert healthKey ovHealth
      (fun x => x.check_date = today) [] _ (by simp) ?_ ?_ r hr
    · intro x hx
      rcases mem_healthRowsOf user (healthSnapshotDate today) env tracks x hx
        with ⟨tr, _, _, hxe⟩
      rw [hxe]
      rfl
    · intro a b ha _
      exact ha

/-- A one-track catalogue whose search and metrics responses resolve and
carry the digit counter 5 (shared by several concrete scenarios). -/
def okStreamsEnv : CatTrack → StreamsEnv := fun _ =>
  ⟨Except.ok [⟨some "tid", some "alb", some "N", [some "A"], some "I"⟩],
   Except.ok ⟨some ⟨[⟨some ⟨some "spotify:track:tid", some "5"⟩⟩]⟩⟩⟩

/-- C10 witness: on a concrete one-track run for today = 0 the persisted
row carries date -1. -/
theorem C10_witness :
    streamsRowOf "u" (0 - 1) ⟨"w1", "I", "T", "A"⟩ 5 ∈
      (run_streams_collection "u" none 0 [⟨"w1", "I", "T", "A"⟩]
        okStreamsEnv []).table ∧
    (streamsRowOf "u" (0 - 1) ⟨"w1", "I", "T", "A"⟩ 5).stream_date =
      (0 : Int) - 1 :=
  ⟨by decide,
   (C10_snapshot_dates 0).2.2.2.1 "u" [⟨"w1", "I", "T", "A"⟩] okStreamsEnv
     _ (by decide)⟩

/-- C7: the anomaly alert fires iff at least one track persisted a metric
and every persisted metric is zero — that is, processed count positive
with aggregate total exactly zero.  The alert flag is computed from the
final counters after the loop and the commits, so it affects neither the
stored rows nor the reported counts. -/
theorem C7_anomaly_alert (user : String) (dayOv : Option Int) (today : Int)
    (tracks : List CatTrack) (env : CatTrack → StreamsEnv)
    (init : List StreamsRow) :
    (run_streams_collection user dayOv today tracks env init).alert = true ↔
      ((∃ tr ∈ tracks,
          (trackPersistedCount (env tr) tr.isrc).isSome = true) ∧
        ∀ tr ∈ tracks, ∀ n,
          trackPersistedCount (env tr) tr.isrc = some n → n = 0) := by
  show (decide (0 < (tracks.foldl
      (streamsStep user (streamsSnapshotDate today dayOv) env)
      ⟨init, init, 0, 0, 0⟩).processed) &&
    decide ((tracks.foldl
      (streamsStep user (streamsSnapshotDate today dayOv) env)
      ⟨init, init, 0, 0, 0⟩).total = 0)) = true ↔ _
  rw [streams_fold_processed, streams_fold_total]
  simp only [Bool.and_eq_true, decide_eq_true_eq, Nat.zero_add]
  constructor
  · rintro ⟨hp, ht⟩
    constructor
    · exact List.countP_pos_iff.mp hp
    · intro tr htr n hn
      have hsum : (tracks.map
          (fun tr => (trackPersistedCount (env tr) tr.isrc).getD 0)).sum
          = 0 := ht
      have hz := List.sum_eq_zero_iff.mp hsum
        ((trackPersistedCount (env tr) tr.isrc).getD 0)
        (List.mem_map.mpr ⟨tr, htr, rfl⟩)
      rw [hn] at hz
      exact hz
  · rintro ⟨⟨tr, htr, hp⟩, hz⟩
    constructor
    · exact List.countP_pos_iff.mpr ⟨tr, htr, hp⟩
    · apply List.sum_eq_zero_iff.mpr
      intro x hx
      rcases List.mem_map.mp hx with ⟨tr', htr', hxe⟩
      cases hp' : trackPersistedCount (env tr') tr'.isrc with
      | none =>
        rw [← hxe, hp']
        rfl
      | some n =>
        rw [← hxe, hp']
        exact hz tr' htr' n hp'

/-- A one-track catalogue environment whose metric extraction yields the
digit counter zero. -/
def zeroStreamsEnv : CatTrack → StreamsEnv := fun _ =>
  ⟨Except.ok [⟨some "tid", some "alb", some "N", [some "A"], some "I"⟩],
   Except.ok ⟨some ⟨[⟨some ⟨some "spotify:track:tid", some "0"⟩⟩]⟩⟩⟩

/-- C7 witness: one processed track with counter zero fires the alert. -/
theorem C7_witness :
    (run_streams_collection "u" none 0 [⟨"w1", "I", "T", "A"⟩]
      zeroStreamsEnv []).alert = true :=
  (C7_anomaly_alert "u" none 0 [⟨"w1", "I", "T", "A"⟩]
    zeroStreamsEnv []).mpr
    ⟨⟨⟨"w1", "I", "T", "A"⟩, by simp, by decide⟩,
     by
      intro tr htr n hn
      rcases List.mem_singleton.mp htr with rfl
      have hv : trackPersistedCount (zeroStreamsEnv ⟨"w1", "I", "T", "A"⟩)
          "I" = some 0 := by decide
      rw [hv] at hn
      exact (Option.some.inj hn).symm⟩

/-- A one-track environment whose search resolves but whose metrics call
fails with a transport error even after retries. -/
def metricsFailEnv : CatTrack → StreamsEnv := fun _ =>
  ⟨Except.ok [⟨some "tid", some "alb", some "N", [some "A"], some "I"⟩],
   Except.error (ReqError.httpError 500)⟩

/-- C6 counterexample: a track whose metrics call fails even after the
executor's retries leaves the run's error count at 0 — fetch_album
swallows the failure and the loop counts no error for that track, so
the claim's "increments its error count" fails on the code. -/
theorem C6_counterexample :
    isSearchError (metricsFailEnv ⟨"w1", "I", "T", "A"⟩) = false ∧
    (metricsFailEnv ⟨"w1", "I", "T", "A"⟩).albumResp =
      Except.error (ReqError.httpError 500) ∧
    (run_streams_collection "u" none 0 [⟨"w1", "I", "T", "A"⟩]
      metricsFailEnv []).errors = 0 ∧
    (run_streams_collection "u" none 0 [⟨"w1", "I", "T", "A"⟩]
      metricsFailEnv []).processed = 0 :=
  ⟨rfl, rfl, by decide, by decide⟩

/-- C6 amended: per-item failures never abort either run — every track is
accounted for in the final counters.  A search failure increments the
metrics run's error count and processing continues; a metrics-call
failure after retries merely yields no metric, without incrementing the
error count; an availability-call failure degrades to "not found", and
the health run's error counter is never incremented at all. -/
theorem C6_per_item_failure_handling (user : String) (dayOv : Option Int)
    (today : Int) (tracks : List CatTrack) (env : CatTrack → StreamsEnv)
    (init : List StreamsRow) :
    ((run_streams_collection user dayOv today tracks env init).errors =
      tracks.countP (fun tr => isSearchError (env tr))) ∧
    ((run_streams_collection user dayOv today tracks env init).processed =
      tracks.countP
        (fun tr => (trackPersistedCount (env tr) tr.isrc).isSome)) ∧
    (∀ artist title e,
      check_spotify_api artist title (Except.error e) = false) ∧
    (∀ artist title, check_apple_music_api artist title
      .netError .netError .netError = false) ∧
    (∀ artist title, check_apple_music_api artist title
      .rateLimited .rateLimited .rateLimited = false) ∧
    (∀ user2 today2 tracks2 env2 init2,
      (run_catalogue_health_check user2 today2 tracks2 env2 init2).errors
        = 0) := by
  refine ⟨?_, ?_, fun a t e => rfl, fun a t => rfl, fun a t => rfl, ?_⟩
  · show (tracks.foldl
      (streamsStep user (streamsSnapshotDate today dayOv) env)
      ⟨init, init, 0, 0, 0⟩).errors = _
    rw [streams_fold_errors]
    simp
  · show (tracks.foldl
      (streamsStep user (streamsSnapshotDate today dayOv) env)
      ⟨init, init, 0, 0, 0⟩).processed = _
    rw [streams_fold_processed]
    simp
  · intro user2 today2 tracks2 env2 init2
    show (tracks2.foldl
      (healthStep user2 (healthSnapshotDate today2) env2)
      ⟨init2, init2, 0, 0⟩).errors = 0
    rw [health_fold_errors]

/-- C6 witness: an availability call failing with a transport error
degrades to "not found". -/
theorem C6_witness :
    check_spotify_api "A" "T"
      (Except.error (ReqError.connectionError "down")) = false :=
  (C6_per_item_failure_handling "u" none 0 [] metricsFailEnv []).2.2.1
    "A" "T" (ReqError.connectionError "down")

/-- Ten catalogue tracks with distinct uids and non-empty metadata. -/
def tenTracks : List CatTrack :=
  [⟨"u1", "I", "T", "A"⟩, ⟨"u2", "I", "T", "A"⟩, ⟨"u3", "I", "T", "A"⟩,
   ⟨"u4", "I", "T", "A"⟩, ⟨"u5", "I", "T", "A"⟩, ⟨"u6", "I", "T", "A"⟩,
   ⟨"u7", "I", "T", "A"⟩, ⟨"u8", "I", "T", "A"⟩, ⟨"u9", "I", "T", "A"⟩,
   ⟨"u10", "I", "T", "A"⟩]

/-- C3 counterexample: a metrics (streams) run that has processed 10
tracks has committed nothing — there is no mid-loop commit in the
streams service, so "every synchronization run commits in batches of 10"
fails on the code. -/
theorem C3_counterexample :
    ((tenTracks.take 10).foldl
      (streamsStep "u" (streamsSnapshotDate 0 none) okStreamsEnv)
      ⟨[], [], 0, 0, 0⟩).processed = 10 ∧
    streamsCommittedAfter "u" none 0 tenTracks okStreamsEnv [] 10 = [] ∧
    ((tenTracks.take 10).foldl
      (streamsStep "u" (streamsSnapshotDate 0 none) okStreamsEnv)
      ⟨[], [], 0, 0, 0⟩).db ≠ [] := by
  refine ⟨by decide, by decide, by decide⟩

/-- C3 amended: only the availability (health) run batches commits every
10 checked tracks (plus a final commit at run end): a failure strictly
inside the next batch preserves exactly the upserts of the previously
completed batches.  The metrics (streams) run issues no mid-loop commit
at all — its durable table stays the initial one for every loop prefix,
so a failure before the run-end commit rolls back all its writes. -/
theorem C3_commit_batching :
    (∀ user dayOv today tracks env init k,
      streamsCommittedAfter user dayOv today tracks env init k = init) ∧
    (∀ user today env init (p q : List CatTrack),
      (∀ t ∈ p, skipTrack t = false) → p.length % 10 = 0 →
      q.length < 10 →
      healthCommittedAfter user today (p ++ q) env init
          (p.length + q.length) =
        foldUpsert healthKey ovHealth init
          (healthRowsOf user (healthSnapshotDate today) env p)) ∧
    (∀ user today tracks env init,
      (run_catalogue_health_check user today tracks env init).committed =
        (run_catalogue_health_check user today tracks env init).db) := by
  refine ⟨?_, ?_, ?_⟩
  · intro user dayOv today tracks env init k
    unfold streamsCommittedAfter
    rw [streams_fold_committed]
  · intro user today env init p q hproc h10 hq
    unfold healthCommittedAfter
    have htake : (p ++ q).take (p.length + q.length) = p ++ q := by
      rw [← List.length_append]
      exact List.take_length _
    rw [htake, List.foldl_append]
    have hchecked : (p.foldl
        (healthStep user (healthSnapshotDate today) env)
        ⟨init, init, 0, 0⟩).checked = p.length := by
      rw [health_fold_checked user _ env p _ hproc]
      simp
    have hcommitted : (p.foldl
        (healthStep user (healthSnapshotDate today) env)
        ⟨init, init, 0, 0⟩).committed =
        (p.foldl (healthStep user (healthSnapshotDate today) env)
          ⟨init, init, 0, 0⟩).db := by
      apply health_fold_commit_boundary user _ env p _ (fun _ => rfl)
      rw [hchecked]
      exact h10
    have hdb : (p.foldl (healthStep user (healthSnapshotDate today) env)
        ⟨init, init, 0, 0⟩).db =
        foldUpsert healthKey ovHealth init
          (healthRowsOf user (healthSnapshotDate today) env p) :=
      health_fold_db user _ env p _
    rw [health_fold_window user (healthSnapshotDate today) env q _
      (by rw [hchecked]; omega)]
    rw [hcommitted, hdb]
  · intro user today tracks env init
    rfl

/-- One more track beyond the ten (for the mid-batch failure scenario). -/
def oneMoreTrack : List CatTrack := [⟨"u11", "I", "T", "A"⟩]

/-- A health environment without any matching result (no similarity
computation involved). -/
def noMatchHealthEnv : CatTrack → HealthEnv := fun _ =>
  ⟨.okResults [], .okResults [], .okResults [],
   Except.error (ReqError.httpError 500)⟩

/-- C3 witness: after ten checked tracks and one more uncommitted track,
the durable health table holds exactly the first batch's ten upserts. -/
theorem C3_witness :
    (∀ t ∈ tenTracks, skipTrack t = false) ∧
    tenTracks.length % 10 = 0 ∧ oneMoreTrack.length < 10 ∧
    healthCommittedAfter "u" 5 (tenTracks ++ oneMoreTrack) noMatchHealthEnv
        [] (tenTracks.length + oneMoreTrack.length) =
      foldUpsert healthKey ovHealth []
        (healthRowsOf "u" (healthSnapshotDate 5) noMatchHealthEnv
          tenTracks) :=
  ⟨by decide, by decide, by decide,
   C3_commit_batching.2.1 "u" 5 noMatchHealthEnv [] tenTracks oneMoreTrack
     (by decide) (by decide) (by decide)⟩

/-! ## Key-distinctness of the rows one run upserts -/

theorem mem_map_key_streamsRowsOf (user : String) (day : Int)
    (env : CatTrack → StreamsEnv) (tracks : List CatTrack)
    (k : String × String × Int)
    (hk : k ∈ (streamsRowsOf user day env tracks).map streamsKey) :
    ∃ tr ∈ tracks, k = ("spotify", tr.track_uid, day) := by
  rcases List.mem_map.mp hk with ⟨r, hr, hkr⟩
  rcases mem_streamsRowsOf user day env tracks r hr with ⟨tr, htr, n, _, hre⟩
  refine ⟨tr, htr, ?_⟩
  rw [← hkr, hre]
  rfl

theorem nodup_keys_streamsRowsOf (user : String) (day : Int)
    (env : CatTrack → StreamsEnv) (tracks : List CatTrack)
    (h : (tracks.map CatTrack.track_uid).Nodup) :
    ((streamsRowsOf user day env tracks).map streamsKey).Nodup := by
  induction tracks with
  | nil => simp [streamsRowsOf]
  | cons tr rest ih =>
    simp only [List.map_cons, List.nodup_cons] at h
    unfold streamsRowsOf
    rw [List.filterMap_cons]
    cases hp : trackPersistedCount (env tr) tr.isrc with
    | none =>
      show ((streamsRowsOf user day env rest).map streamsKey).Nodup
      exact ih h.2
    | some n =>
      show ((streamsRowOf user day tr n ::
        streamsRowsOf user day env rest).map streamsKey).Nodup
      rw [List.map_cons, List.nodup_cons]
      refine ⟨?_, ih h.2⟩
      intro hmem
      rcases mem_map_key_streamsRowsOf user day env rest _ hmem with
        ⟨tr', htr', hke⟩
      have : tr.track_uid = tr'.track_uid := by
        have h1 : streamsKey (streamsRowOf user day tr n) =
            ("spotify", tr.track_uid, day) := rfl
        rw [h1] at hke
        exact congrArg (fun p => p.2.1) hke
      exact h.1 (this ▸ List.mem_map.mpr ⟨tr', htr', rfl⟩)

theorem mem_map_key_healthRowsOf (user : String) (day : Int)
    (env : CatTrack → HealthEnv) (tracks : List CatTrack)
    (k : Int × String)
    (hk : k ∈ (healthRowsOf user day env tracks).map healthKey) :
    ∃ tr ∈ tracks, k = (day, tr.track_uid) := by
  rcases List.mem_map.mp hk with ⟨r, hr, hkr⟩
  rcases mem_healthRowsOf user day env tracks r hr with ⟨tr, htr, _, hre⟩
  refine ⟨tr, htr, ?_⟩
  rw [← hkr, hre]
  rfl

theorem nodup_keys_healthRowsOf (user : String) (day : Int)
    (env : CatTrack → HealthEnv) (tracks : List CatTrack)
    (h : (tracks.map CatTrack.track_uid).Nodup) :
    ((healthRowsOf user day env tracks).map healthKey).Nodup := by
  induction tracks with
  | nil => simp [healthRowsOf]
  | cons tr rest ih =>
    simp only [List.map_cons, List.nodup_cons] at h
    unfold healthRowsOf
    rw [List.filterMap_cons]
    by_cases hs : skipTrack tr = true
    · rw [if_pos hs]
      show ((healthRowsOf user day env rest).map healthKey).Nodup
      exact ih h.2
    · rw [Bool.not_eq_true] at hs
      rw [hs]
      simp only [Bool.false_eq_true, if_false]
      show ((healthRowOf user day env tr ::
        healthRowsOf user day env rest).map healthKey).Nodup
      rw [List.map_cons, List.nodup_cons]
      refine ⟨?_, ih h.2⟩
      intro hmem
      rcases mem_map_key_healthRowsOf user day env rest _ hmem with
        ⟨tr', htr', hke⟩
      have : tr.track_uid = tr'.track_uid := by
        have h1 : healthKey (healthRowOf user day env tr) =
            (day, tr.track_uid) := rfl
        rw [h1] at hke
        exact congrArg (fun p => p.2) hke
      exact h.1 (this ▸ List.mem_map.mpr ⟨tr', htr', rfl⟩)

/-- C1: with distinct catalogue uids and well-keyed initial tables,
running the same (user, date) synchronization twice with identical
upstream responses leaves both snapshot tables exactly as after the
first run; the tables never hold two rows with the same conflict key;
and every persisted track's key holds exactly one row carrying that
run's value fields (the playcount, namely the extracted counter). -/
theorem C1_snapshot_idempotence (user : String) (dayOv : Option Int)
    (today : Int) (tracks : List CatTrack)
    (envS : CatTrack → StreamsEnv) (envH : CatTrack → HealthEnv)
    (initS : List StreamsRow) (initH : List HealthRow)
    (hS : (initS.map streamsKey).Nodup)
    (hH : (initH.map healthKey).Nodup)
    (hU : (tracks.map CatTrack.track_uid).Nodup) :
    ((run_streams_collection user dayOv today tracks envS
        (run_streams_collection user dayOv today tracks envS initS).table
      ).table =
      (run_streams_collection user dayOv today tracks envS initS).table) ∧
    ((run_catalogue_health_check user today tracks envH
        (run_catalogue_health_check user today tracks envH initH).db).db =
      (run_catalogue_health_check user today tracks envH initH).db) ∧
    (((run_streams_collection user dayOv today tracks envS initS
      ).table.map streamsKey).Nodup) ∧
    (((run_catalogue_health_check user today tracks envH initH
      ).db.map healthKey).Nodup) ∧
    (∀ tr ∈ tracks, ∀ n, trackPersistedCount (envS tr) tr.isrc = some n →
      countKey streamsKey
          (run_streams_collection user dayOv today tracks envS initS).table
          ("spotify", tr.track_uid, streamsSnapshotDate today dayOv) = 1 ∧
      ∀ r ∈ (run_streams_collection user dayOv today tracks envS initS
          ).table,
        streamsKey r =
          ("spotify", tr.track_uid, streamsSnapshotDate today dayOv) →
        r.playcount = n) ∧
    (∀ tr ∈ tracks, skipTrack tr = false →
      countKey healthKey
          (run_catalogue_health_check user today tracks envH initH).db
          (healthSnapshotDate today, tr.track_uid) = 1) := by
  have hrunS : ∀ init : List StreamsRow,
      (run_streams_collection user dayOv today tracks envS init).table =
        foldUpsert streamsKey ovStreams init
          (streamsRowsOf user (streamsSnapshotDate today dayOv) envS
            tracks) := by
    intro init
    show (tracks.foldl
      (streamsStep user (streamsSnapshotDate today dayOv) envS)
      ⟨init, init, 0, 0, 0⟩).db = _
    rw [streams_fold_db]
  have hrunH : ∀ init : List HealthRow,
      (run_catalogue_health_check user today tracks envH init).db =
        foldUpsert healthKey ovHealth init
          (healthRowsOf user (healthSnapshotDate today) envH tracks) := by
    intro init
    show (tracks.foldl
      (healthStep user (healthSnapshotDate today) envH)
      ⟨init, init, 0, 0⟩).db = _
    rw [health_fold_db]
  have hndrS := nodup_keys_streamsRowsOf user
    (streamsSnapshotDate today dayOv) envS tracks hU
  have hndrH := nodup_keys_healthRowsOf user
    (healthSnapshotDate today) envH tracks hU
  refine ⟨?_, ?_, ?_, ?_, ?_, ?_⟩
  · rw [hrunS, hrunS]
    exact foldUpsert_idem streamsKey ovStreams streamsKey_ovStreams
      ovStreams_absorb ovStreams_self _ hndrS initS
  · rw [hrunH, hrunH]
    exact foldUpsert_idem healthKey ovHealth healthKey_ovHealth
      ovHealth_absorb ovHealth_self _ hndrH initH
  · rw [hrunS]
    exact nodup_foldUpsert streamsKey ovStreams streamsKey_ovStreams _
      initS hS
  · rw [hrunH]
    exact nodup_foldUpsert healthKey ovHealth healthKey_ovHealth _
      initH hH
  · intro tr htr n hn
    have hrow : streamsRowOf user (streamsSnapshotDate today dayOv) tr n ∈
        streamsRowsOf user (streamsSnapshotDate today dayOv) envS tracks :=
      List.mem_filterMap.mpr ⟨tr, htr, by rw [hn]; rfl⟩
    constructor
    · rw [hrunS]
      exact countKey_foldUpsert_self streamsKey ovStreams
        streamsKey_ovStreams _ initS hS hndrS _ hrow
    · intro r hr hk
      rw [hrunS] at hr
      have hshape := mem_key_foldUpsert_self streamsKey ovStreams
        streamsKey_ovStreams _ initS hndrS _ hrow r hr hk
      rcases hshape with ⟨a, ha⟩ | hx
      · rw [ha]
        rfl
      · rw [hx]
        rfl
  · intro tr htr hskip
    have hrow : healthRowOf user (healthSnapshotDate today) envH tr ∈
        healthRowsOf user (healthSnapshotDate today) envH tracks :=
      List.mem_filterMap.mpr ⟨tr, htr, by rw [hskip]; rfl⟩
    rw [hrunH]
    exact countKey_foldUpsert_self healthKey ovHealth healthKey_ovHealth
      _ initH hH hndrH _ hrow

/-- C1 witness: on a concrete one-track catalogue, rerunning the streams
collection on the table the first run produced leaves it unchanged. -/
theorem C1_witness :
    ((([] : List StreamsRow).map streamsKey).Nodup) ∧
    ((([] : List HealthRow).map healthKey).Nodup) ∧
    (([⟨"w1", "I", "T", "A"⟩] :
      List CatTrack).map CatTrack.track_uid).Nodup ∧
    (run_streams_collection "u" none 0 [⟨"w1", "I", "T", "A"⟩] okStreamsEnv
        (run_streams_collection "u" none 0 [⟨"w1", "I", "T", "A"⟩]
          okStreamsEnv []).table).table =
      (run_streams_collection "u" none 0 [⟨"w1", "I", "T", "A"⟩]
        okStreamsEnv []).table :=
  ⟨by simp, by simp, by decide,
   (C1_snapshot_idempotence "u" none 0 [⟨"w1", "I", "T", "A"⟩] okStreamsEnv
     noMatchHealthEnv [] [] (by simp) (by simp) (by decide)).1⟩

end ISRC
